import Mathlib

/-!
# mkssi-fast-export: verification of spec claims against the source

Shallow embedding of the parts of mkssi-fast-export that the claims
C1..C10 are about.  C strings are modelled as `List Nat` (byte values,
NUL-free; the end of the list plays the role of the NUL terminator).
RCS revision numbers (`struct rcs_number`, an array of C `short`s with a
count) are modelled as `List Int`.  Fallible C functions (those that
return false / print a warning and bail, or hit `fatal_error`) are
modelled with `Option`.

Definitions keep the names of the C functions they embed.
-/

namespace MkssiFastExport

/-! ## Byte helpers (ctype.h as used by the source, C locale) -/

/-- C `tolower` on a byte, C locale (only ASCII letters fold). -/
def tolower_c (c : Nat) : Nat :=
  if 65 ≤ c ∧ c ≤ 90 then c + 32 else c

/-- C `isspace` on a byte, C locale. -/
def isspace_c (c : Nat) : Bool :=
  c = 32 ∨ c = 9 ∨ c = 10 ∨ c = 11 ∨ c = 12 ∨ c = 13

/-- C `isgraph` on a byte, C locale: printable and not space. -/
def isgraph_c (c : Nat) : Bool :=
  33 ≤ c ∧ c ≤ 126

/-- `strcasecmp(a,b) == 0`: byte-wise case-insensitive equality. -/
def eq_strcase (a b : List Nat) : Bool :=
  a.map tolower_c = b.map tolower_c

/-! ## rcs-number.c -/

/-- `rcs_number_compare` (rcs-number.c): lexicographic on the common
prefix of components, then shorter length sorts first. -/
def rcs_number_compare (a b : List Int) : Int :=
  match a, b with
  | [], [] => 0
  | [], _ :: _ => -1
  | _ :: _, [] => 1
  | x :: xs, y :: ys =>
    if x < y then -1
    else if y < x then 1
    else rcs_number_compare xs ys

/-- `rcs_number_partial_match` (rcs-number.c): `num` equals `spec` up
through the end of `spec`. -/
def rcs_number_partial_match (num spec : List Int) : Bool :=
  match spec, num with
  | [], _ => true
  | _ :: _, [] => false
  | s :: ss, n :: ns => n = s && rcs_number_partial_match ns ss

/-- `rcs_number_is_trunk` (rcs-number.c). -/
def rcs_number_is_trunk (number : List Int) : Bool :=
  number.length = 2

/-- `rcs_number_increment` (rcs-number.c): add one to the last
component. -/
def rcs_number_increment (number : List Int) : List Int :=
  match number with
  | [] => []
  | [x] => [x + 1]
  | x :: xs => x :: rcs_number_increment xs

/-- The in-place effect of `rcs_number_decrement` (rcs-number.c): the
last component is decremented; if it reaches zero and the number has at
least four components, the last two components are dropped.  The C
function additionally returns NULL when the decremented number has two
components and the last became zero; callers that ignore the return
value (changeset.c `adjust_updates`) still see the mutated value, which
is what this function computes. -/
def rcs_number_decrement_mut (number : List Int) : List Int :=
  match number.getLast? with
  | none => []
  | some last =>
    if last - 1 ≠ 0 then number.dropLast ++ [last - 1]
    else if 4 ≤ number.length then (number.dropLast).dropLast
    else number.dropLast ++ [0]

/-- Return value of `rcs_number_decrement`: NULL (`none`) when a
two-component number has its last component reach zero. -/
def rcs_number_decrement (number : List Int) : Option (List Int) :=
  match number.getLast? with
  | none => none
  | some last =>
    if last - 1 ≠ 0 then some (number.dropLast ++ [last - 1])
    else if 4 ≤ number.length then some ((number.dropLast).dropLast)
    else none

/-! ## lines.c

A line (`struct rcs_line`) carries its content bytes and the
`no_newline` flag.  The `lineno`/`line_allocated` bookkeeping fields
and NULL-line tombstones (used only while a text patch is mid-flight)
play no role in the claims below, so lines here always have content. -/

/-- One numbered line: content (sans terminator) and whether the final
terminator was missing (`no_newline`). -/
structure RLine where
  line : List Nat
  no_newline : Bool
deriving DecidableEq, Repr

/-- `line_length` (lines.c): distance to the first `\n`, `\r\n`
pair, or NUL; a `\r` not followed by `\n` is ordinary content. -/
def line_length : List Nat → Nat
  | [] => 0
  | c :: rest =>
    if c = 10 then 0
    else if c = 13 ∧ rest.head? = some 10 then 0
    else line_length rest + 1

/-- The scanning loop of `string_to_lines` (lines.c): split off one
line of `line_length` bytes, then skip a `\r\n` or `\n` terminator; if
neither follows (end of string), mark the line `no_newline`. -/
def string_to_lines_go (s : List Nat) : List RLine :=
  match hs : s with
  | [] => []
  | _ :: _ =>
    let n := line_length s
    match hrest : s.drop n with
    | 13 :: 10 :: r => ⟨s.take n, false⟩ :: string_to_lines_go r
    | 10 :: r => ⟨s.take n, false⟩ :: string_to_lines_go r
    | _ => [⟨s.take n, true⟩]
termination_by s.length
decreasing_by
  · rw [← hs]
    have h2 := List.length_drop n s
    rw [hrest] at h2
    simp only [List.length_cons] at h2
    omega
  · rw [← hs]
    have h2 := List.length_drop n s
    rw [hrest] at h2
    simp only [List.length_cons] at h2
    omega

/-- `string_to_lines` (lines.c): a zero-length string yields one empty
`no_newline` line (the allocated fallback line in the C code). -/
def string_to_lines (str : List Nat) : List RLine :=
  match str with
  | [] => [⟨[], true⟩]
  | _ :: _ => string_to_lines_go str

/-- `lines_to_string` (lines.c): concatenate the lines, appending `\n`
after each line whose `no_newline` flag is clear. -/
def lines_to_string (lines : List RLine) : List Nat :=
  lines.foldr (fun ln acc => ln.line ++ (if ln.no_newline then [] else [10]) ++ acc) []

/-- Claim-side definition for C10, from the claim's words: `s` with
each `\r\n` sequence replaced by `\n` and all other bytes unchanged. -/
def replaceCRLF : List Nat → List Nat
  | [] => []
  | c :: r =>
    if c = 13 ∧ r.head? = some 10 then 10 :: replaceCRLF r.tail
    else c :: replaceCRLF r
termination_by s => s.length
decreasing_by
  all_goals simp only [List.length_tail, List.length_cons]
  all_goals omega

/-- Does the string contain a `\r\n` sequence? -/
def hasCRLF : List Nat → Bool
  | [] => false
  | c :: r =>
    if c = 13 ∧ r.head? = some 10 then true
    else hasCRLF r

/-! ## rcs-keyword.c: `$Log$` expansion helpers -/

/-- `rcs_data_reescape_ats` (rcs-keyword.c) on one line's bytes: copy
every byte and emit a second `@` right after each `@` (`'@'` = 64). -/
def reescape_line : List Nat → List Nat
  | [] => []
  | c :: r =>
    if c = 64 then 64 :: 64 :: reescape_line r
    else c :: reescape_line r

/-- `rcs_data_reescape_ats` (rcs-keyword.c): re-escape single `@` to
`@@` on every line of the list. -/
def rcs_data_reescape_ats (lines : List RLine) : List RLine :=
  lines.map (fun ln => ⟨reescape_line ln.line, ln.no_newline⟩)

/-- `log_text_to_lines` (rcs-keyword.c): break the check-in comment
into lines, re-escape `@` to `@@` (the duplicated MKSSI bug), then put
the `$Log$` template line's prefix (its first `pre_len` bytes) and
postfix (`post_len` bytes starting at `post_start`) around each line
and clear `no_newline`. -/
def log_text_to_lines (log template_line : List Nat)
    (pre_len post_start post_len : Nat) : List RLine :=
  (rcs_data_reescape_ats (string_to_lines log)).map
    (fun ln => ⟨template_line.take pre_len
        ++ ln.line
        ++ (template_line.drop post_start).take post_len, false⟩)

/-- Claim-side definition for C9, from the claim's words: the comment
text with every single `@` appearing as `@@`. -/
def doubledAts (l : List Nat) : List Nat :=
  (l.map (fun c => if c = 64 then [64, 64] else [c])).flatten

/-! ## rcs-binary.c: the binary patch engine -/

/-- `buffer_insert` (rcs-binary.c): insert `buf` at byte index `off`;
fails (error message, false return) when `off` lies beyond the end of
the buffer.  The offset is an `Int` because `apply_patch` computes it
with C `size_t` arithmetic that can wrap below zero; a negative value
wraps to a huge `size_t` which the `off > vb->len` check likewise
rejects (observed buffers are far below 2^63 bytes). -/
def buffer_insert (data buf : List Nat) (off : Int) : Option (List Nat) :=
  if off < 0 ∨ (data.length : Int) < off then none
  else some (data.take off.toNat ++ buf ++ data.drop off.toNat)

/-- `buffer_delete` (rcs-binary.c): delete `len` bytes at byte index
`off`; fails when `off + len` exceeds the buffer length (a negative
wrapped `off` is likewise rejected, as for `buffer_insert`). -/
def buffer_delete (data : List Nat) (off : Int) (len : Nat) :
    Option (List Nat) :=
  if off < 0 ∨ (data.length : Int) < off + len then none
  else some (data.take off.toNat ++ data.drop (off.toNat + len))

/-- One parsed binary patch command: `dOFF LEN\n`, or `aOFF LEN\n`
followed by `LEN` raw bytes.  The decimal parsing that
`get_offset_length` (rcs-binary.c) performs is abstracted away;
`off`/`len` are the parsed numbers and `bytes` the raw insert data. -/
inductive BinCmd where
  | del (off len : Nat)
  | ins (off : Nat) (bytes : List Nat)
deriving DecidableEq, Repr

/-- The command loop of `apply_patch` (rcs-binary.c).  `adjust` starts
at 0.  A delete command removes `len` bytes at byte index
`off - 1 + adjust` and then adds `len` to `adjust`; an insert command
places its bytes at byte index `off - adjust` and then subtracts their
count from `adjust`.  Any buffer failure aborts (`fatal_error`). -/
def apply_patch_go (adjust : Int) :
    List BinCmd → List Nat → Option (List Nat)
  | [], data => some data
  | BinCmd.del off len :: rest, data =>
    match buffer_delete data ((off : Int) - 1 + adjust) len with
    | none => none
    | some d => apply_patch_go (adjust + len) rest d
  | BinCmd.ins off bytes :: rest, data =>
    match buffer_insert data bytes ((off : Int) - adjust) with
    | none => none
    | some d => apply_patch_go (adjust - bytes.length) rest d

/-- `apply_patch` (rcs-binary.c), for a file not stored by reference
and whose patch is present: run the command loop with `adjust = 0`. -/
def apply_patch (cmds : List BinCmd) (data : List Nat) :
    Option (List Nat) :=
  apply_patch_go 0 cmds data

/-- Amended-claim-side definition for C3: the running net count of
bytes deleted by a command list (each delete adds its length, each
insert subtracts its byte count). -/
def net_deleted : List BinCmd → Int
  | [] => 0
  | BinCmd.del _ len :: rest => len + net_deleted rest
  | BinCmd.ins _ bytes :: rest => net_deleted rest - bytes.length

/-- Amended-claim-side definition for C3: apply each command at an
absolute position computed from its parsed offset and the net count of
bytes deleted by the commands *before* it (`done`): a delete removes
bytes at index `off - 1 + net_deleted done` of the buffer as patched so
far, an insert places its bytes at index `off - net_deleted done`. -/
def applyAmended_go (done : List BinCmd) :
    List BinCmd → List Nat → Option (List Nat)
  | [], data => some data
  | BinCmd.del off len :: rest, data =>
    match buffer_delete data ((off : Int) - 1 + net_deleted done) len with
    | none => none
    | some d => applyAmended_go (done ++ [BinCmd.del off len]) rest d
  | BinCmd.ins off bytes :: rest, data =>
    match buffer_insert data bytes ((off : Int) - net_deleted done) with
    | none => none
    | some d => applyAmended_go (done ++ [BinCmd.ins off bytes]) rest d

/-- The amended claim's reading of a whole binary patch. -/
def applyAmended (cmds : List BinCmd) (data : List Nat) :
    Option (List Nat) :=
  applyAmended_go [] cmds data


/-! ## rcs-binary.c: the revision walker and its blob callback

The walker operates on one file at a time, so the mark state tracks a
single file: `ctr` is `blob_mark_counter` (export.c), `verMark` maps a
revision number to its `ver->blob_mark`, and `otherMark` is
`file->other_blob_mark` (zero meaning unassigned). -/

/-- The fields of `struct rcs_file` (interfaces.h) that drive the
binary revision walker: the head revision number,
`has_member_type_other`, `dummy`, and whether `reference_subdir` is
set. -/
structure BinFile where
  head : List Int
  hasOther : Bool
  dummy : Bool
  refSubdir : Bool

/-- The mark state threaded through the walker: the blob mark counter
and the marks recorded on the file being walked. -/
structure BinSt where
  ctr : Nat
  verMark : List Int → Nat
  otherMark : Nat

/-- One callback invocation as it appears in the fast-import stream:
the revision number, the emitted bytes, the mark printed by
`export_blob` (the pre-incremented counter), and the
`member_type_other` flag. -/
structure BinPayload where
  rev : List Int
  bytes : List Nat
  mark : Nat
  mto : Bool
deriving DecidableEq, Repr

/-- `export_binary_revision_blob` (export.c): bump the mark counter;
for a non-dummy file a `member_type_other=false` call records the new
mark in `ver->blob_mark`; a `member_type_other=true` call records it in
`file->other_blob_mark`. -/
def export_binary_revision_blob (f : BinFile) (st : BinSt)
    (rev : List Int) (mto : Bool) : BinSt :=
  { ctr := st.ctr + 1
    verMark :=
      if f.dummy = false ∧ mto = false then
        fun r => if r = rev then st.ctr + 1 else st.verMark r
      else st.verMark
    otherMark := if mto then st.ctr + 1 else st.otherMark }

/-- `export_revision_blob` (export.c), the text-file callback: bump
the counter; record the mark in `file->other_blob_mark` for a
`member_type_other=true` call and in `ver->blob_mark` otherwise. -/
def export_revision_blob (st : BinSt) (rev : List Int) (mto : Bool) :
    BinSt :=
  { ctr := st.ctr + 1
    verMark :=
      if mto = false then
        fun r => if r = rev then st.ctr + 1 else st.verMark r
      else st.verMark
    otherMark := if mto then st.ctr + 1 else st.otherMark }

/-- A node of the binary patch-buffer forest
(`struct rcs_binary_patch_buffer`, rcs-binary.c): the revision number,
the parsed patch commands of its text (used when the node is patched
against earlier data), the raw text (used directly as the revision
data when the node is the head), and the branch chains rooted at this
revision.  A chain of `parent` links is a `List BinNode`. -/
inductive BinNode where
  | mk (rev : List Int) (cmds : List BinCmd) (text : List Nat)
      (branches : List (List BinNode)) : BinNode

/-- The member-type-other head fix-up inside `apply_patches_and_emit`
(rcs-binary.c:479): when the file has member type "other", no other
blob mark has been assigned (the project directory copy was not
available), and the revision just emitted is the head, record the head
revision's own blob mark as `other_blob_mark`. -/
def other_mark_fixup (f : BinFile) (st : BinSt) (rev : List Int) :
    BinSt :=
  if f.hasOther = true ∧ st.otherMark = 0 ∧ rev = f.head then
    { st with otherMark := st.verMark rev }
  else st

/-- The per-node data step of `apply_patches_and_emit` (rcs-binary.c):
when running data exists, apply the node's patch commands to it to
obtain the data of this revision; when there is none yet, the node is
the head and its raw text is the revision data. -/
def next_data (cmds : List BinCmd) (text : List Nat) :
    Option (List Nat) → Option (List Nat)
  | some dprev => apply_patch cmds dprev
  | none => some text

mutual

/-- `apply_patches_and_emit` (rcs-binary.c): walk a chain of patch
buffers.  Patch the running data (or take the head text when there is
no data yet, or start from an empty buffer for a file stored by
reference), pass each revision to the callback, run the
member-type-other head fix-up, and recurse into the branch chains on a
copy of the data.  The `reference_subdir` substitution is written per
step; it only fires on the initial call because the running data is
present from the first node on, exactly as in the C loop. -/
def apply_patches_and_emit (f : BinFile) :
    Option (List Nat) → List BinNode → BinSt →
      Option (BinSt × List BinPayload)
  | _, [], st => some (st, [])
  | data, BinNode.mk rev cmds text branches :: rest, st =>
    match next_data cmds text
        (if f.refSubdir ∧ data = none then some [] else data) with
    | none => none
    | some d =>
      match walk_branches f d branches
          (other_mark_fixup f
            (export_binary_revision_blob f st rev false) rev) with
      | none => none
      | some (st3, evb) =>
        match apply_patches_and_emit f (some d) rest st3 with
        | none => none
        | some (st4, evr) =>
          some (st4, BinPayload.mk rev d (st.ctr + 1) false
            :: (evb ++ evr))
termination_by data chain st => sizeOf chain
decreasing_by all_goals (simp <;> omega)

/-- The branch loop of `apply_patches_and_emit` (rcs-binary.c:484):
recursively walk each branch chain rooted at the current revision,
against a copy of the current data. -/
def walk_branches (f : BinFile) (d : List Nat) :
    List (List BinNode) → BinSt → Option (BinSt × List BinPayload)
  | [], st => some (st, [])
  | b :: bs, st =>
    match apply_patches_and_emit f (some d) b st with
    | none => none
    | some (st1, ev1) =>
      match walk_branches f d bs st1 with
      | none => none
      | some (st2, ev2) => some (st2, ev1 ++ ev2)
termination_by bs st => sizeOf bs
decreasing_by all_goals (simp <;> omega)

end

/-- `export_projdir_revision` (rcs-binary.c): when the project
directory is available and the file exists there
(`projdirCopy = some bytes`), emit the project-directory copy for the
head revision with `member_type_other=true`; otherwise do nothing. -/
def export_projdir_revision (f : BinFile)
    (projdirCopy : Option (List Nat)) (st : BinSt) :
    BinSt × List BinPayload :=
  match projdirCopy with
  | some bytes =>
    (export_binary_revision_blob f st f.head true,
      [BinPayload.mk f.head bytes (st.ctr + 1) true])
  | none => (st, [])

/-- `rcs_binary_file_read_all_revisions` (rcs-binary.c): for a file
with member type "other" first export the project-directory copy; a
dummy file has no RCS metadata and stops there; otherwise walk the
whole patch-buffer forest from the head revision. -/
def rcs_binary_file_read_all_revisions (f : BinFile)
    (projdirCopy : Option (List Nat)) (patches : List BinNode)
    (st : BinSt) : Option (BinSt × List BinPayload) :=
  let s1 := if f.hasOther then export_projdir_revision f projdirCopy st
            else (st, [])
  if f.dummy then some s1
  else
    match apply_patches_and_emit f none patches s1.1 with
    | none => none
    | some (st2, ev) => some (st2, s1.2 ++ ev)

/-- Modelled from the spec: the member-type-other re-emission step of
the current text revision walker.  The copy of rcs-text.c in src/ is a
stale revision (its callback type predates the four-argument
`rcs_revision_data_handler_t` declared in interfaces.h and it never
re-emits), so this step is modelled from the spec and the interfaces.h
field documentation: when `has_member_type_other` is set, revision 1.1
is passed to the callback once more with `member_type_other=true` and
without keyword expansion, and the callback records the fresh mark in
`other_blob_mark`. -/
def text_reemit_other (f : BinFile) (rev11data : List Nat)
    (st : BinSt) : BinSt × List BinPayload :=
  if f.hasOther then
    (export_revision_blob st [1, 1] true,
      [BinPayload.mk [1, 1] rev11data (st.ctr + 1) true])
  else (st, [])

/-! ## changeset.c: `adjust_updates`

The file whose update is being adjusted is fixed; its patches are
modelled by `patchOf : List Int → Option (Option (List Nat))`
(`rcs_file_find_patch` with `fatalerr = false`): `none` means no patch
structure exists for that revision, `some log?` a patch whose `log`
field is `log?` (`none` = the C NULL log of a missing patch). -/

/-- The bytes of the C string `"Duplicate revision\n"`. -/
def dupRevLog : List Nat :=
  [68, 117, 112, 108, 105, 99, 97, 116, 101, 32,
   114, 101, 118, 105, 115, 105, 111, 110, 10]

/-- The inner loop of `adjust_updates` (changeset.c) for one update
with `oldrev`: repeatedly decrement `prevrev`; stop when it no longer
lies strictly above `oldrev`; skip revisions whose patch is missing
(warning) or whose log is exactly `"Duplicate revision\n"`; otherwise
prepend an update `(prevrev, c->newrev)` to the accumulator and lower
`c->newrev` (`cnew`) to `prevrev`.  `fuel` bounds the number of
decrements; the C loop has no such bound, and every theorem below
supplies fuel that the run provably never exhausts. -/
def adjust_updates_loop (patchOf : List Int → Option (Option (List Nat)))
    (oldrev : List Int) :
    Nat → List Int → List Int → List (List Int × List Int) →
      List (List Int × List Int) × List Int
  | 0, cnew, _prevrev, acc => (acc, cnew)
  | fuel + 1, cnew, prevrev, acc =>
    let pr := rcs_number_decrement_mut prevrev
    if 0 ≤ rcs_number_compare oldrev pr then (acc, cnew)
    else
      match patchOf pr with
      | none => adjust_updates_loop patchOf oldrev fuel cnew pr acc
      | some log? =>
        if log? = some dupRevLog then
          adjust_updates_loop patchOf oldrev fuel cnew pr acc
        else
          adjust_updates_loop patchOf oldrev fuel pr pr ((pr, cnew) :: acc)

/-- The body of the outer loop of `adjust_updates` (changeset.c) for
one update `(oldrev, newrev)`: an update whose revision moved backward
(`rcs_number_compare(oldrev, newrev) > 0`) is left alone, otherwise
the expansion loop runs.  Returns the extra updates (in the order the
code accumulates them) and the adjusted `newrev` of the original
update. -/
def adjust_updates_one (patchOf : List Int → Option (Option (List Nat)))
    (fuel : Nat) (oldrev newrev : List Int) :
    List (List Int × List Int) × List Int :=
  if 0 < rcs_number_compare oldrev newrev then ([], newrev)
  else adjust_updates_loop patchOf oldrev fuel newrev newrev []

/-- The walk `adjust_updates` performs: `ds` lists the successive
values of `prevrev` obtained by repeated `rcs_number_decrement_mut`
starting from `start`. -/
def isDecWalk : List Int → List (List Int) → Bool
  | _, [] => true
  | start, d :: rest =>
    d == rcs_number_decrement_mut start && isDecWalk d rest

/-- Claim-side definition for C4: on a path of intermediate revisions,
keep those whose patch log is not exactly `"Duplicate revision\n"`. -/
def kept_on_path (patchOf : List Int → Option (Option (List Nat)))
    (asc : List (List Int)) : List (List Int) :=
  asc.filter (fun r => !(patchOf r == some (some dupRevLog)))

/-- Claim-side definition for C4: one update per kept revision, each
stepping to the next kept revision (the last stepping to `top`). -/
def chainLinks (ks : List (List Int)) (top : List Int) :
    List (List Int × List Int) :=
  ks.zip (ks.tail ++ [top])

/-- The skip test actually performed by the loop: a revision is kept
when its patch exists and its log is not exactly
`"Duplicate revision\n"` (a missing patch is skipped with a warning). -/
def keep_code (patchOf : List Int → Option (Option (List Nat)))
    (r : List Int) : Bool :=
  match patchOf r with
  | none => false
  | some log? => !(log? == some dupRevLog)

/-- The revisions of a path that the loop keeps. -/
def kept_code_path (patchOf : List Int → Option (Option (List Nat)))
    (asc : List (List Int)) : List (List Int) :=
  asc.filter (keep_code patchOf)

/-! ## merge.c: merging updates into commits

`merge_updates` and its helpers.  An update is the part of
`struct file_change` the merger reads; files are identified by a
number (`file` pointer identity).  The version/patch metadata looked
up via `rcs_file_find_version`/`rcs_file_find_patch` (with
`fatalerr = true`) is modelled by a `MergeEnv` keyed on
`(file, newrev)`. -/

/-- An element of the updates change list. -/
structure Upd where
  fileId : Nat
  oldrev : List Int
  newrev : List Int
  projrev_update : Bool
deriving DecidableEq, Repr

/-- The version author, patch log and patch `missing` flag of each
`(file, newrev)` pair. -/
structure MergeEnv where
  author : Nat → List Int → List Nat
  logOf : Nat → List Int → List Nat
  missing : Nat → List Int → Bool

/-- Who a commit is attributed to: the `unknown_author`, the mapped
author of a file revision (`author_map(ver->author)`), or the mapped
author of the project revision (for `$ProjectRevision$` commits). -/
inductive Committer where
  | unknown
  | mapped (author : List Nat)
  | projrev
deriving DecidableEq, Repr

/-- An update commit as built by `merge_updates`: its committer and
its update list.  (The commit message and the final by-name re-sort of
the update list, which only permutes it, are not modelled.) -/
structure UpdCommit where
  committer : Committer
  updates : List Upd
deriving DecidableEq, Repr

/-- The scan of `merge_matching_updates` (merge.c) over the unmerged
list: `merged` holds the commit's updates so far and `kept` the
already-passed updates that stay unmerged, both in reverse order.  An
update is skipped when it is a `$ProjectRevision$` update, its file is
already in the commit, its file appears earlier in the unmerged list,
it is a revert (`newrev` below `oldrev`), or its patch is missing;
otherwise it is merged exactly when its author matches the head's
case-insensitively and its log matches byte for byte. -/
def mmu_go (env : MergeEnv) (head : Upd) :
    List Upd → List Upd → List Upd → List Upd × List Upd
  | merged, kept, [] => (merged.reverse, kept.reverse)
  | merged, kept, u :: rest =>
    if u.projrev_update then mmu_go env head merged (u :: kept) rest
    else if merged.any (fun m => m.fileId == u.fileId) then
      mmu_go env head merged (u :: kept) rest
    else if kept.any (fun k => k.fileId == u.fileId) then
      mmu_go env head merged (u :: kept) rest
    else if rcs_number_compare u.newrev u.oldrev < 0 then
      mmu_go env head merged (u :: kept) rest
    else if env.missing u.fileId u.newrev then
      mmu_go env head merged (u :: kept) rest
    else if eq_strcase (env.author u.fileId u.newrev)
          (env.author head.fileId head.newrev)
        ∧ env.logOf u.fileId u.newrev
          = env.logOf head.fileId head.newrev then
      mmu_go env head (u :: merged) kept rest
    else mmu_go env head merged (u :: kept) rest

/-- `merge_matching_updates` (merge.c): a head update whose patch is
missing matches nothing; otherwise scan the unmerged list.  Returns
the commit's update list and the remaining unmerged list. -/
def merge_matching_updates (env : MergeEnv) (merge_head : Upd)
    (unmerged : List Upd) : List Upd × List Upd :=
  if env.missing merge_head.fileId merge_head.newrev then
    ([merge_head], unmerged)
  else mmu_go env merge_head [merge_head] [] unmerged

/-- `merge_projrev_updates` (merge.c): move every `$ProjectRevision$`
update of the unmerged list into the commit, keeping both orders. -/
def merge_projrev_updates (unmerged : List Upd) : List Upd × List Upd :=
  (unmerged.filter (fun u => u.projrev_update),
   unmerged.filter (fun u => !u.projrev_update))

/-- `merge_updates` (merge.c): pop the first update; a
`$ProjectRevision$` update absorbs all other such updates, with the
project revision's author; a revert (`newrev` compares below
`oldrev`) forms a solitary commit with the unknown author; any other
update forms a commit with its revision author and all matching
updates. -/
def merge_updates (env : MergeEnv) (updates : List Upd) :
    List UpdCommit :=
  match updates with
  | [] => []
  | update :: update_list =>
    if update.projrev_update then
      UpdCommit.mk Committer.projrev
          (update :: (merge_projrev_updates update_list).1)
        :: merge_updates env (merge_projrev_updates update_list).2
    else if rcs_number_compare update.newrev update.oldrev < 0 then
      UpdCommit.mk Committer.unknown [update]
        :: merge_updates env update_list
    else
      UpdCommit.mk
          (Committer.mapped (env.author update.fileId update.newrev))
          (merge_matching_updates env update update_list).1
        :: merge_updates env (merge_matching_updates env update update_list).2
termination_by updates.length
decreasing_by
  · simp only [merge_projrev_updates, List.length_cons]
    have := List.length_filter_le (fun u => !u.projrev_update) update_list
    omega
  · simp only [List.length_cons]
    omega
  · simp only [List.length_cons]
    have hb : ∀ (l merged kept : List Upd),
        ((mmu_go env update merged kept l).2).length
          ≤ kept.length + l.length := by
      intro l
      induction l with
      | nil =>
        intro merged kept
        simp [mmu_go]
      | cons u rest ih =>
        intro merged kept
        rw [mmu_go]
        split_ifs <;>
          first
            | (have h2 := ih merged (u :: kept)
               simp only [List.length_cons] at h2 ⊢
               omega)
            | (have h2 := ih (u :: merged) kept
               simp only [List.length_cons] at h2 ⊢
               omega)
    rw [merge_matching_updates]
    split_ifs
    · simp
    · have := hb update_list [update] []
      simp only [List.length_nil] at this
      omega

/-- Claim-side definition for C5: two updates share a
case-insensitively equal author and byte-identical log text. -/
def sameAuthorLog (env : MergeEnv) (u v : Upd) : Prop :=
  eq_strcase (env.author u.fileId u.newrev)
      (env.author v.fileId v.newrev) = true
  ∧ env.logOf u.fileId u.newrev = env.logOf v.fileId v.newrev

/-! ## export.c: the export driver and blob/commit ordering

`export()` runs `export_blobs()` to completion before
`export_project_changes()` emits any commit.  The payloads the
revision walkers deliver during `export_blobs` are abstracted as a
list; the state tracks `blob_mark_counter` and the saved
`ver->blob_mark` / `file->other_blob_mark` values (0 = unassigned,
as `xcalloc` leaves them). -/

/-- The stream lines relevant to C2: a blob's `mark :<K>` line and a
commit's `M <mode> :<K> <path>` line. -/
inductive Ev where
  | blob (mark : Nat)
  | filemod (mark : Nat)
deriving DecidableEq, Repr

/-- One payload delivered to `export_revision_blob` (text) or
`export_binary_revision_blob` (binary) during `export_blobs`. -/
structure Payload where
  fileId : Nat
  rev : List Int
  mto : Bool
  dummy : Bool
deriving DecidableEq, Repr

/-- The mark state: `blob_mark_counter`, each version's `blob_mark`
and each file's `other_blob_mark`. -/
structure ExpSt where
  ctr : Nat
  verMark : Nat → List Int → Nat
  otherMark : Nat → Nat

/-- `export_revision_blob` / `export_binary_revision_blob` (export.c):
pre-increment the counter; a `member_type_other` payload saves the
mark in the file's `other_blob_mark`, otherwise (for a non-dummy
file) in the version's `blob_mark`. -/
def export_one_blob (st : ExpSt) (p : Payload) : ExpSt :=
  { ctr := st.ctr + 1
    verMark :=
      if p.dummy ∨ p.mto then st.verMark
      else fun f r =>
        if f = p.fileId ∧ r = p.rev then st.ctr + 1 else st.verMark f r
    otherMark :=
      if p.mto then fun f =>
        if f = p.fileId then st.ctr + 1 else st.otherMark f
      else st.otherMark }

/-- `export_blobs` (export.c): emit one `blob`/`mark` record per
payload, threading the mark state. -/
def export_blobs_model : ExpSt → List Payload → ExpSt × List Ev
  | st, [] => (st, [])
  | st, p :: rest =>
    ((export_blobs_model (export_one_blob st p) rest).1,
      Ev.blob (st.ctr + 1)
        :: (export_blobs_model (export_one_blob st p) rest).2)

/-- A file modification inside a commit (the fields
`export_filemodifies` reads). -/
structure Mod where
  fileId : Nat
  newrev : List Int
  mto : Bool
  dummy : Bool
deriving DecidableEq, Repr

/-- The mark an `M` line references (`export_filemodifies`,
export.c:366-381): a dummy file's or "other" modification uses the
file's `other_blob_mark`, anything else the version's `blob_mark`. -/
def mod_mark (st : ExpSt) (m : Mod) : Nat :=
  if m.dummy then st.otherMark m.fileId
  else if m.mto then st.otherMark m.fileId
  else st.verMark m.fileId m.newrev

/-- The `M` lines of the commits `export_project_changes` emits, in
order (renames and deletes reference no marks and are omitted). -/
def export_commits_model (st : ExpSt) (commits : List (List Mod)) :
    List Ev :=
  (commits.map (fun c => c.map (fun m => Ev.filemod (mod_mark st m)))).flatten

/-- `export` (export.c): all blobs (from a zeroed mark state), then
all commits. -/
def export_model (payloads : List Payload) (commits : List (List Mod)) :
    List Ev :=
  (export_blobs_model ⟨0, fun _ _ => 0, fun _ => 0⟩ payloads).2
    ++ export_commits_model
        (export_blobs_model ⟨0, fun _ _ => 0, fun _ => 0⟩ payloads).1
        commits

/-! ## utils.c / project.c: branch-name sanitization -/

/-- `sanitize_mkssi_branch_char` (utils.c): whitespace becomes `_`
(95); characters in `\*?,:[` (92, 42, 63, 44, 58, 91) or outside the
graphable printable range are skipped (`none`, C return -1); anything
else passes through. -/
def sanitize_mkssi_branch_char (c : Nat) : Option Nat :=
  if isspace_c c then some 95
  else if c = 92 ∨ c = 42 ∨ c = 63 ∨ c = 44 ∨ c = 58 ∨ c = 91
      ∨ isgraph_c c = false then none
  else some c

/-- `is_hex_digit` (utils.c). -/
def is_hex_digit (c : Nat) : Bool :=
  (48 ≤ c ∧ c ≤ 57) ∨ (97 ≤ c ∧ c ≤ 102) ∨ (65 ≤ c ∧ c ≤ 70)

/-- Value of one hex digit (the effect of `strtol(hexnum, NULL, 16)`
in `parse_mkssi_branch_char` on a digit known to be hex). -/
def hex_val (c : Nat) : Nat :=
  if 48 ≤ c ∧ c ≤ 57 then c - 48
  else if 97 ≤ c ∧ c ≤ 102 then c - 87
  else if 65 ≤ c ∧ c ≤ 70 then c - 55
  else 0

/-- `parse_mkssi_branch_char` (utils.c): decode `%HH` only when both
digits are hex and the value is ASCII (<= 0x7f), else take the byte
literally; a `.` whose parse unit ends the string (`!s[len]`) becomes
`_`; then sanitize.  Returns (bytes consumed, sanitized character or
`none` for skip). -/
def parse_mkssi_branch_char (s : List Nat) : Nat × Option Nat :=
  let raw : Nat × Nat :=
    match s with
    | 37 :: h1 :: h2 :: _ =>
      if is_hex_digit h1 ∧ is_hex_digit h2
          ∧ hex_val h1 * 16 + hex_val h2 ≤ 127 then
        (3, hex_val h1 * 16 + hex_val h2)
      else (1, 37)
    | c :: _ => (1, c)
    | [] => (1, 0)
  let ch := if raw.2 = 46 ∧ s.drop raw.1 = [] then 95 else raw.2
  (raw.1, sanitize_mkssi_branch_char ch)

/-- The rewrite loop of `sanitize_branch_name` (project.c): repeatedly
parse one (possibly multibyte) unit and keep the sanitized characters. -/
def sanitize_branch_name_go (s : List Nat) : List Nat :=
  match hs : s with
  | [] => []
  | _ :: _ =>
    let p := parse_mkssi_branch_char s
    (match p.2 with
      | some c => [c]
      | none => []) ++ sanitize_branch_name_go (s.drop p.1)
termination_by s.length
decreasing_by
  rw [← hs]
  have hp : 1 ≤ (parse_mkssi_branch_char s).1 := by
    simp only [parse_mkssi_branch_char]
    split <;> (try split) <;> simp
  have hlen := List.length_drop (parse_mkssi_branch_char s).1 s
  rw [hs] at *
  simp only [List.length_cons] at *
  omega

/-- `sanitize_branch_name` (project.c): an entirely empty result is a
`fatal_error` (`none`). -/
def sanitize_branch_name (branch_name : List Nat) : Option (List Nat) :=
  let r := sanitize_branch_name_go branch_name
  if r = [] then none else some r

/-! ## main.c: argument handling -/

/-- Where a message goes and with what exit status the process ends. -/
inductive OutStream where
  | standard
  | error
deriving DecidableEq, Repr

/-- `usage` (main.c): prints the usage text to stdout and exits 0 when
`error` is false; prints to stderr and exits 1 when `error` is true. -/
def usage (error : Bool) : OutStream × Nat :=
  if error then (OutStream.error, 1) else (OutStream.standard, 0)

/-- The no-argument check at the top of `main` (main.c line 246): with
`argc == 1` (no command-line arguments at all) `main` calls
`usage(argv[0], false)`; `none` means execution continues. -/
def main_no_args_check (argc : Nat) : Option (OutStream × Nat) :=
  if argc = 1 then some (usage false) else none


end MkssiFastExport

namespace MkssiFastExport

/-! ## Theorems: C8 -/

/-- C8: `rcs_number_compare` realises the spec order: distinct trunk
revisions compare numerically (lexicographically on the two
components), and a branch root compares before (and partially matches)
every revision extending it on that branch. -/
theorem rcs_number_order_spec (a0 a1 b0 b1 : Int) (a t : List Int)
    (hne : t ≠ []) :
    ((a0 < b0 ∨ (a0 = b0 ∧ a1 < b1)) →
      rcs_number_compare [a0, a1] [b0, b1] < 0)
    ∧ (rcs_number_partial_match (a ++ t) a = true
        ∧ rcs_number_compare a (a ++ t) < 0) := by
  refine ⟨?_, ?_, ?_⟩
  · rintro (h | ⟨he, h⟩)
    · simp [rcs_number_compare, h]
    · simp [rcs_number_compare, he, h, lt_irrefl]
  · induction a with
    | nil => simp [rcs_number_partial_match]
    | cons x xs ih => simpa [rcs_number_partial_match] using ih
  · induction a with
    | nil =>
      cases t with
      | nil => exact absurd rfl hne
      | cons y ys => simp [rcs_number_compare]
    | cons x xs ih => simpa [rcs_number_compare, lt_irrefl] using ih

/-- Witness for C8 at concrete revisions 1.2 < 1.3 (trunk) and
1.4 < 1.4.1.1 (branch root vs branch revision). -/
theorem rcs_number_order_spec_witness :
    rcs_number_compare [1, 2] [1, 3] < 0
    ∧ rcs_number_partial_match [1, 4, 1, 1] [1, 4] = true
    ∧ rcs_number_compare [1, 4] [1, 4, 1, 1] < 0 :=
  ⟨(rcs_number_order_spec 1 2 1 3 [1, 4] [1, 1] (by decide)).1
      (Or.inr ⟨rfl, by decide⟩),
    (rcs_number_order_spec 1 2 1 3 [1, 4] [1, 1] (by decide)).2⟩

/-! ## Lemmas about lines.c, leading to C10 -/

/-- Unfolding: the scan loop when a `\r\n` pair follows the line. -/
theorem string_to_lines_go_crlf (head : Nat) (tail r : List Nat)
    (hrest : (head :: tail).drop (line_length (head :: tail)) = 13 :: 10 :: r) :
    string_to_lines_go (head :: tail)
      = ⟨(head :: tail).take (line_length (head :: tail)), false⟩
          :: string_to_lines_go r := by
  rw [string_to_lines_go]
  split
  · rename_i heq
    rw [hrest] at heq
    cases heq
    rfl
  · rename_i heq
    rw [hrest] at heq
    cases heq
  · rename_i hne _
    exact absurd hrest (hne r)

/-- Unfolding: the scan loop when a bare `\n` follows the line. -/
theorem string_to_lines_go_lf (head : Nat) (tail r : List Nat)
    (hrest : (head :: tail).drop (line_length (head :: tail)) = 10 :: r) :
    string_to_lines_go (head :: tail)
      = ⟨(head :: tail).take (line_length (head :: tail)), false⟩
          :: string_to_lines_go r := by
  rw [string_to_lines_go]
  split
  · rename_i heq
    rw [hrest] at heq
    cases heq
  · rename_i heq
    rw [hrest] at heq
    cases heq
    rfl
  · rename_i _ hne
    exact absurd hrest (hne r)

/-- Unfolding: the scan loop when the string ends without a
terminator (`no_newline` is set). -/
theorem string_to_lines_go_end (head : Nat) (tail : List Nat)
    (hrest : (head :: tail).drop (line_length (head :: tail)) = []) :
    string_to_lines_go (head :: tail)
      = [⟨(head :: tail).take (line_length (head :: tail)), true⟩] := by
  rw [string_to_lines_go]
  split
  · rename_i heq
    rw [hrest] at heq
    cases heq
  · rename_i heq
    rw [hrest] at heq
    cases heq
  · rfl

/-- `replaceCRLF` leaves the first `line_length` bytes unchanged. -/
theorem replaceCRLF_split (s : List Nat) :
    replaceCRLF s
      = s.take (line_length s) ++ replaceCRLF (s.drop (line_length s)) := by
  induction s with
  | nil => rfl
  | cons c rest ih =>
    by_cases h10 : c = 10
    · simp [line_length, h10]
    · by_cases h13 : c = 13 ∧ rest.head? = some 10
      · simp [line_length, h13, h10]
      · rw [line_length, if_neg h10, if_neg h13]
        rw [replaceCRLF, if_neg h13]
        rw [List.take_succ_cons, List.drop_succ_cons, List.cons_append]
        rw [ih]

/-- After a line is scanned off, the remainder is empty or starts with
`\n` or `\r\n`. -/
theorem drop_line_length_shape (s : List Nat) :
    s.drop (line_length s) = []
    ∨ (∃ r, s.drop (line_length s) = 10 :: r)
    ∨ (∃ r, s.drop (line_length s) = 13 :: 10 :: r) := by
  induction s with
  | nil => left; rfl
  | cons c rest ih =>
    by_cases h10 : c = 10
    · right; left
      exact ⟨rest, by simp [line_length, h10]⟩
    · by_cases h13 : c = 13 ∧ rest.head? = some 10
      · right; right
        obtain ⟨hc, hh⟩ := h13
        cases rest with
        | nil => simp at hh
        | cons d ds =>
          simp only [List.head?_cons, Option.some.injEq] at hh
          refine ⟨ds, ?_⟩
          rw [line_length, if_neg h10, if_pos ⟨hc, by simp [hh]⟩]
          simp [hc, hh]
      · rw [line_length, if_neg h10, if_neg h13]
        simpa using ih

/-- The scan loop of `string_to_lines` followed by `lines_to_string`
normalises `\r\n` to `\n` and changes nothing else. -/
theorem lines_to_string_go (s : List Nat) :
    lines_to_string (string_to_lines_go s) = replaceCRLF s := by
  induction s using string_to_lines_go.induct with
  | case1 => rw [string_to_lines_go]; simp [lines_to_string, replaceCRLF]
  | case2 head tail r n hrest ih =>
    rw [string_to_lines_go_crlf head tail r hrest]
    rw [replaceCRLF_split (head :: tail)]
    rw [show (head :: tail).drop (line_length (head :: tail)) = 13 :: 10 :: r
      from hrest]
    rw [replaceCRLF, if_pos ⟨rfl, rfl⟩]
    simp only [lines_to_string, List.foldr_cons, List.tail_cons,
      List.append_assoc] at *
    simp [ih]
  | case3 head tail r n hrest ih =>
    rw [string_to_lines_go_lf head tail r hrest]
    rw [replaceCRLF_split (head :: tail)]
    rw [show (head :: tail).drop (line_length (head :: tail)) = 10 :: r
      from hrest]
    rw [replaceCRLF, if_neg (by simp)]
    simp only [lines_to_string, List.foldr_cons, List.append_assoc] at *
    simp [ih]
  | case4 head tail n hne1 hne2 =>
    have hend : (head :: tail).drop (line_length (head :: tail)) = [] := by
      rcases drop_line_length_shape (head :: tail) with h | ⟨r, h⟩ | ⟨r, h⟩
      · exact h
      · exact absurd h (hne2 r)
      · exact absurd h (hne1 r)
    rw [string_to_lines_go_end head tail hend]
    rw [replaceCRLF_split (head :: tail), hend]
    simp [lines_to_string, replaceCRLF]

/-- If a string has no `\r\n`, `replaceCRLF` is the identity on it. -/
theorem replaceCRLF_of_no_crlf (s : List Nat) (h : hasCRLF s = false) :
    replaceCRLF s = s := by
  induction s with
  | nil => simp [replaceCRLF]
  | cons c rest ih =>
    simp only [hasCRLF] at h
    by_cases h13 : c = 13 ∧ rest.head? = some 10
    · rw [if_pos h13] at h
      cases h
    · rw [if_neg h13] at h
      rw [replaceCRLF, if_neg h13, ih h]

/-! ## Theorems: C10 -/

/-- C10: `lines_to_string (string_to_lines s)` returns `s` with each
`\r\n` replaced by `\n` and all other bytes unchanged; in particular
the round trip is the identity when `s` contains no `\r\n` (including
the empty string and strings whose last line has no terminator). -/
theorem lines_roundtrip_crlf (s : List Nat) :
    lines_to_string (string_to_lines s) = replaceCRLF s
    ∧ (hasCRLF s = false → lines_to_string (string_to_lines s) = s) := by
  have hmain : lines_to_string (string_to_lines s) = replaceCRLF s := by
    cases s with
    | nil => simp [string_to_lines, lines_to_string, replaceCRLF]
    | cons c rest => exact lines_to_string_go (c :: rest)
  exact ⟨hmain, fun h => hmain.trans (replaceCRLF_of_no_crlf s h)⟩

/-- Witness for C10 at the concrete strings `"a\r\nb"` (normalised)
and `"ab"` (no trailing newline: identity). -/
theorem lines_roundtrip_crlf_witness :
    lines_to_string (string_to_lines [97, 13, 10, 98]) = [97, 10, 98]
    ∧ lines_to_string (string_to_lines [97, 98]) = [97, 98] :=
  ⟨((lines_roundtrip_crlf [97, 13, 10, 98]).1).trans
      (by simp [replaceCRLF]),
    (lines_roundtrip_crlf [97, 98]).2 (by simp [hasCRLF])⟩


/-! ## Lemmas and theorems: C9 -/

/-- The C re-escape loop doubles exactly the `@` bytes. -/
theorem reescape_line_eq_doubledAts (l : List Nat) :
    reescape_line l = doubledAts l := by
  induction l with
  | nil => rfl
  | cons c r ih =>
    by_cases hc : c = 64
    · simp [reescape_line, doubledAts, hc] at *
      exact ih
    · simp [reescape_line, doubledAts, hc] at *
      exact ih

/-- `doubledAts` distributes over cons. -/
theorem doubledAts_cons (c : Nat) (r : List Nat) :
    doubledAts (c :: r)
      = (if c = 64 then [64, 64] else [c]) ++ doubledAts r := by
  simp [doubledAts]

/-- Doubling turns each `@` into two. -/
theorem doubledAts_count (l : List Nat) :
    (doubledAts l).count 64 = 2 * l.count 64 := by
  induction l with
  | nil => rfl
  | cons c r ih =>
    by_cases hc : c = 64
    · simp [doubledAts_cons, hc, List.count_append, List.count_cons, ih]
      omega
    · simp [doubledAts_cons, hc, List.count_append, List.count_cons, ih]

/-- C9: `log_text_to_lines` inserts the check-in comment with every
single `@` re-escaped to `@@` (the observed MKSSI bug): each inserted
line is the template prefix, the comment line with each `@` doubled,
and the template postfix; in particular the inserted text carries twice
as many `@` bytes as the comment line. -/
theorem log_text_to_lines_reescapes (log tmpl : List Nat)
    (pl ps pn : Nat) :
    log_text_to_lines log tmpl pl ps pn
      = (string_to_lines log).map
          (fun ln => ⟨tmpl.take pl ++ doubledAts ln.line
              ++ (tmpl.drop ps).take pn, false⟩)
    ∧ ∀ ln ∈ string_to_lines log,
        (doubledAts ln.line).count 64 = 2 * ln.line.count 64 := by
  constructor
  · rw [log_text_to_lines, rcs_data_reescape_ats, List.map_map]
    apply List.map_congr_left
    intro ln _
    simp [reescape_line_eq_doubledAts]
  · intro ln _
    exact doubledAts_count ln.line

/-! ## Lemmas and theorems: C3 -/

/-- `net_deleted` is additive over concatenation. -/
theorem net_deleted_append (a b : List BinCmd) :
    net_deleted (a ++ b) = net_deleted a + net_deleted b := by
  induction a with
  | nil => simp [net_deleted]
  | cons c r ih =>
    cases c with
    | del off len => simp [net_deleted, ih]; ring
    | ins off bytes => simp [net_deleted, ih]; ring

/-- The threaded `adjust` accumulator of `apply_patch` equals the net
deleted count of the already-consumed command prefix. -/
theorem apply_patch_go_eq_amended (rest : List BinCmd) :
    ∀ (done : List BinCmd) (data : List Nat),
    apply_patch_go (net_deleted done) rest data
      = applyAmended_go done rest data := by
  induction rest with
  | nil => intro done data; rfl
  | cons c r ih =>
    intro done data
    cases c with
    | del off len =>
      rw [apply_patch_go, applyAmended_go]
      cases buffer_delete data ((off : Int) - 1 + net_deleted done) len with
      | none => rfl
      | some d =>
        have : net_deleted done + (len : Int)
            = net_deleted (done ++ [BinCmd.del off len]) := by
          rw [net_deleted_append]
          simp [net_deleted]
        rw [this]
        exact ih (done ++ [BinCmd.del off len]) d
    | ins off bytes =>
      rw [apply_patch_go, applyAmended_go]
      cases buffer_insert data bytes ((off : Int) - net_deleted done) with
      | none => rfl
      | some d =>
        have : net_deleted done - (bytes.length : Int)
            = net_deleted (done ++ [BinCmd.ins off bytes]) := by
          rw [net_deleted_append]
          simp [net_deleted]
          ring
        rw [this]
        exact ih (done ++ [BinCmd.ins off bytes]) d

/-- C3 counterexample: under the claim's reading, the patch
`d1 1` `d2 1` deletes the pre-patch bytes at 1-based offsets 1 and 2,
so from `[0, 1, 2, 3, 4]` it would leave `[2, 3, 4]`; the code instead
deletes the second range at `2 - 1 + adjust` with `adjust = 1`, leaving
`[1, 2, 4]` (pre-patch byte `1` at offset 2 survives). -/
theorem apply_patch_del_not_prepatch :
    apply_patch [BinCmd.del 1 1, BinCmd.del 2 1] [0, 1, 2, 3, 4]
      = some [1, 2, 4]
    ∧ ([1, 2, 4] : List Nat) ≠ [2, 3, 4] := by
  constructor
  · rfl
  · decide

/-- C3 (amended): every delete of a binary patch removes its bytes at
byte index `OFF - 1 + adjust` of the buffer as patched by the earlier
commands (which is the pre-patch offset only when `adjust` is zero),
and every insert places its bytes at index `OFF - adjust`, where
`adjust` is the running net count of bytes deleted by the earlier
commands of the same patch (each delete adds its length, each earlier
insert subtracts its byte count). -/
theorem apply_patch_amended_spec (cmds : List BinCmd) (data : List Nat) :
    apply_patch cmds data = applyAmended cmds data := by
  have h := apply_patch_go_eq_amended cmds [] data
  simpa [apply_patch, applyAmended, net_deleted] using h


/-! ## Lemmas and theorems: C4 -/

/-- Decrementing a two-component revision decrements its last
component (also when it reaches zero: the C code then reports "none"
but the mutated value, which `adjust_updates` keeps using, is the
same). -/
theorem rcs_number_decrement_mut_pair (a b : Int) :
    rcs_number_decrement_mut [a, b] = [a, b - 1] := by
  have h : ([a, b] : List Int).getLast? = some b := by simp
  rw [rcs_number_decrement_mut.eq_def, h]
  simp only []
  split_ifs with h1 h2
  · simp
  · simp at h2
  · push_neg at h1
    simp [h1]

/-- `rcs_number_compare` on two-component revisions with equal first
component compares the second components. -/
theorem rcs_number_compare_pair (a x p : Int) :
    rcs_number_compare [a, x] [a, p]
      = if x < p then -1 else if p < x then 1 else 0 := by
  rw [rcs_number_compare]
  simp only [lt_irrefl, if_false]
  rw [rcs_number_compare]
  split_ifs <;> simp [rcs_number_compare]

/-- `chainLinks` over a list extended on the right. -/
theorem chainLinks_snoc (ks : List (List Int)) (pr top : List Int) :
    chainLinks (ks ++ [pr]) top = chainLinks ks pr ++ [(pr, top)] := by
  cases ks with
  | nil => simp [chainLinks]
  | cons k kt =>
    unfold chainLinks
    have htail : ((k :: kt) ++ [pr]).tail = kt ++ [pr] := by simp
    rw [htail]
    have hlen : (k :: kt).length = (kt ++ [pr]).length := by simp
    rw [List.zip_append hlen]
    simp

/-- `headD` over a list extended on the right. -/
theorem headD_snoc (ks : List (List Int)) (pr top : List Int) :
    (ks ++ [pr]).headD top = ks.headD pr := by
  cases ks <;> simp

/-- Under the C4 hypothesis that every intermediate revision on the
path has a patch, the loop's skip test keeps exactly the
non-duplicates. -/
theorem kept_code_path_eq_kept_on_path
    (patchOf : List Int → Option (Option (List Nat)))
    (asc : List (List Int))
    (hpatch : ∀ r ∈ asc, patchOf r ≠ none) :
    kept_code_path patchOf asc = kept_on_path patchOf asc := by
  unfold kept_code_path kept_on_path
  apply List.filter_congr
  intro r hr
  have hne := hpatch r hr
  unfold keep_code
  cases hp : patchOf r with
  | none => exact absurd hp hne
  | some l => simp [hp]

/-- One run of the expansion loop of `adjust_updates` along the
decrement walk `ds` (whose last element is the first revision not
above `oldrev`, where the loop breaks): it emits one update per kept
intermediate revision (accumulated in ascending order), chaining each
kept revision to the next one, and lowers the original update's
`newrev` (`cnew`) to the lowest kept intermediate. -/
theorem adjust_updates_loop_path
    (patchOf : List Int → Option (Option (List Nat)))
    (oldrev : List Int) :
    ∀ (ds : List (List Int)) (fuel : Nat) (start cnew : List Int)
      (acc : List (List Int × List Int)),
    ds ≠ [] → ds.length ≤ fuel →
    isDecWalk start ds = true →
    (∀ d ∈ ds.dropLast, rcs_number_compare oldrev d < 0) →
    0 ≤ rcs_number_compare oldrev (ds.getLastD []) →
    adjust_updates_loop patchOf oldrev fuel cnew start acc
      = (chainLinks (kept_code_path patchOf (ds.dropLast).reverse) cnew
           ++ acc,
         (kept_code_path patchOf (ds.dropLast).reverse).headD cnew) := by
  intro ds
  induction ds with
  | nil => intro fuel start cnew acc hne; exact absurd rfl hne
  | cons d rest ih =>
    intro fuel start cnew acc _hne hlen hwalk hmid hlast
    simp only [isDecWalk, Bool.and_eq_true, beq_iff_eq] at hwalk
    obtain ⟨hd, hwalk⟩ := hwalk
    cases fuel with
    | zero => simp at hlen
    | succ f =>
      rw [adjust_updates_loop]
      simp only [← hd]
      cases rest with
      | nil =>
        simp only [List.getLastD_cons, List.getLastD_nil] at hlast
        rw [if_pos hlast]
        simp [kept_code_path, chainLinks]
      | cons r2 rs =>
        have hdmid : rcs_number_compare oldrev d < 0 := by
          apply hmid
          simp [List.dropLast_cons_of_ne_nil]
        rw [if_neg (by omega)]
        have hrest_ne : (r2 :: rs : List (List Int)) ≠ [] := by simp
        have hrest_len : (r2 :: rs : List (List Int)).length ≤ f := by
          simp only [List.length_cons] at hlen ⊢
          omega
        have hrest_mid : ∀ e ∈ (r2 :: rs).dropLast,
            rcs_number_compare oldrev e < 0 := by
          intro e he
          apply hmid
          rw [List.dropLast_cons_of_ne_nil (by simp)]
          exact List.mem_cons_of_mem d he
        have hrest_last :
            0 ≤ rcs_number_compare oldrev ((r2 :: rs).getLastD []) := by
          rw [List.getLastD_cons] at hlast ⊢
          cases rs with
          | nil => simpa using hlast
          | cons r3 rs2 => simpa [List.getLastD_cons] using hlast
        have hasc : ((d :: r2 :: rs).dropLast).reverse
            = ((r2 :: rs).dropLast).reverse ++ [d] := by
          rw [List.dropLast_cons_of_ne_nil (by simp)]
          simp
        have hsnoc : kept_code_path patchOf (((d :: r2 :: rs).dropLast).reverse)
            = kept_code_path patchOf (((r2 :: rs).dropLast).reverse)
              ++ (if keep_code patchOf d then [d] else []) := by
          rw [hasc]
          unfold kept_code_path
          rw [List.filter_append]
          congr 1
          simp [List.filter_cons]
        cases hpat : patchOf d with
        | none =>
          dsimp only
          rw [ih f d cnew acc hrest_ne hrest_len hwalk hrest_mid hrest_last]
          have hkeep : keep_code patchOf d = false := by
            unfold keep_code
            rw [hpat]
          rw [hsnoc, hkeep]
          simp
        | some logq =>
          dsimp only
          by_cases hdup : logq = some dupRevLog
          · rw [if_pos hdup]
            rw [ih f d cnew acc hrest_ne hrest_len hwalk hrest_mid hrest_last]
            have hkeep : keep_code patchOf d = false := by
              unfold keep_code
              rw [hpat]
              simp [hdup]
            rw [hsnoc, hkeep]
            simp
          · rw [if_neg hdup]
            rw [ih f d d ((d, cnew) :: acc) hrest_ne hrest_len hwalk
              hrest_mid hrest_last]
            have hkeep : keep_code patchOf d = true := by
              unfold keep_code
              rw [hpat]
              simp [hdup]
            rw [hsnoc, hkeep]
            simp only [if_true]
            rw [chainLinks_snoc, headD_snoc]
            simp

/-- C4 counterexample: an intermediate revision with no patch at all
is also skipped (changeset.c warns and continues), so the skip set is
not exactly the duplicate-log revisions.  With no patch for rev. 1.4
(and ordinary patches elsewhere), expanding 1.2 -> 1.5 emits only the
update 1.3 -> 1.5, while the claim's duplicate-log-only reading keeps
1.4 and predicts 1.3 -> 1.4 and 1.4 -> 1.5. -/
theorem adjust_updates_missing_patch_skip :
    adjust_updates_one
        (fun r => if r = [1, 4] then none else some (some []))
        3 [1, 2] [1, 5]
      = ([([1, 3], [1, 5])], [1, 3])
    ∧ chainLinks
        (kept_on_path
          (fun r => if r = [1, 4] then none else some (some []))
          [[1, 3], [1, 4]]) [1, 5]
      = [([1, 3], [1, 4]), ([1, 4], [1, 5])]
    ∧ ([([1, 3], [1, 5])] : List (List Int × List Int))
      ≠ [([1, 3], [1, 4]), ([1, 4], [1, 5])] := by
  refine ⟨?_, ?_, ?_⟩ <;> decide

/-- C4 (amended): for an update whose revision strictly advanced
(`oldrev` below `newrev`, with `ds` the decrement walk the loop takes
from `newrev` down to `oldrev`), `adjust_updates` emits one separate
update per intermediate revision on the path, skipping exactly those
intermediate revisions that have no patch at all (warning) or whose
patch log is exactly `"Duplicate revision\n"`: the extra updates chain
each kept intermediate to the next, the last one reaching `newrev`,
and the original update's `newrev` is lowered to the first kept
intermediate.  An update whose revision moved backward
(`rcs_number_compare(oldrev, newrev) > 0`) receives no expansion. -/
theorem adjust_updates_expansion_amended
    (patchOf : List Int → Option (Option (List Nat)))
    (oldrev newrev bold bnew : List Int)
    (ds : List (List Int)) (fuel : Nat)
    (hne : ds ≠ []) (hfuel : ds.length ≤ fuel)
    (hwalk : isDecWalk newrev ds = true)
    (hmid : ∀ d ∈ ds.dropLast, rcs_number_compare oldrev d < 0)
    (hlast : 0 ≤ rcs_number_compare oldrev (ds.getLastD []))
    (hfwd : ¬ 0 < rcs_number_compare oldrev newrev)
    (hback : 0 < rcs_number_compare bold bnew) :
    adjust_updates_one patchOf fuel oldrev newrev
      = (chainLinks (kept_code_path patchOf (ds.dropLast).reverse)
           newrev,
         (kept_code_path patchOf (ds.dropLast).reverse).headD newrev)
    ∧ adjust_updates_one patchOf fuel bold bnew = ([], bnew) := by
  constructor
  · rw [adjust_updates_one, if_neg hfwd]
    rw [adjust_updates_loop_path patchOf oldrev ds fuel newrev newrev []
      hne hfuel hwalk hmid hlast]
    simp
  · rw [adjust_updates_one, if_pos hback]

/-- Witness for C4 (amended): old revision 1.1, new revision 1.5,
with the patch for 1.4 missing and 1.3 a duplicate revision; the walk
is 1.4, 1.3, 1.2, 1.1, both 1.4 and 1.3 are skipped, and the single
update 1.2 to 1.5 results; the backward update 1.3 to 1.2 is
untouched. -/
theorem adjust_updates_expansion_amended_witness :
    adjust_updates_one
        (fun r => if r = [1, 4] then none
          else if r = [1, 3] then some (some dupRevLog)
          else some (some [])) 4 [1, 1] [1, 5]
      = ([([1, 2], [1, 5])], [1, 2])
    ∧ adjust_updates_one
        (fun r => if r = [1, 4] then none
          else if r = [1, 3] then some (some dupRevLog)
          else some (some [])) 4 [1, 3] [1, 2]
      = ([], [1, 2]) := by
  have h := adjust_updates_expansion_amended
    (fun r => if r = [1, 4] then none
      else if r = [1, 3] then some (some dupRevLog)
      else some (some [])) [1, 1] [1, 5] [1, 3] [1, 2]
    [[1, 4], [1, 3], [1, 2], [1, 1]] 4
    (by decide) (by decide) (by decide) (by decide) (by decide)
    (by decide) (by decide)
  exact ⟨h.1.trans (by decide), h.2⟩

/-! ## Lemmas and theorems: C2 -/

/-- `export_blobs` emits exactly the blob records with marks
`st0.ctr + 1 .. st0.ctr + n`, in order, and advances the counter by
the number of payloads. -/
theorem export_blobs_model_spec (ps : List Payload) :
    ∀ st0 : ExpSt,
    (export_blobs_model st0 ps).2
      = (List.range ps.length).map (fun j => Ev.blob (st0.ctr + j + 1))
    ∧ (export_blobs_model st0 ps).1.ctr = st0.ctr + ps.length := by
  induction ps with
  | nil =>
    intro st0
    simp [export_blobs_model]
  | cons p rest ih =>
    intro st0
    rw [export_blobs_model]
    have h2 := ih (export_one_blob st0 p)
    dsimp only
    constructor
    · rw [h2.1]
      rw [List.length_cons, List.range_succ_eq_map]
      simp only [List.map_cons, List.map_map]
      refine congrArg₂ List.cons (by simp) ?_
      apply List.map_congr_left
      intro j _
      simp only [Function.comp_apply, export_one_blob, Ev.blob.injEq]
      omega
    · rw [h2.2]
      simp only [export_one_blob, List.length_cons]
      omega

/-- Every mark recorded in the state after `export_blobs` is at most
the final counter. -/
theorem export_blobs_model_marks (ps : List Payload) :
    ∀ st0 : ExpSt,
    (∀ f r, st0.verMark f r ≤ st0.ctr) →
    (∀ f, st0.otherMark f ≤ st0.ctr) →
    (∀ f r, (export_blobs_model st0 ps).1.verMark f r
        ≤ (export_blobs_model st0 ps).1.ctr)
    ∧ ∀ f, (export_blobs_model st0 ps).1.otherMark f
        ≤ (export_blobs_model st0 ps).1.ctr := by
  induction ps with
  | nil =>
    intro st0 h1 h2
    rw [export_blobs_model]
    exact ⟨h1, h2⟩
  | cons p rest ih =>
    intro st0 h1 h2
    rw [export_blobs_model]
    dsimp only
    apply ih
    · intro f r
      show (export_one_blob st0 p).verMark f r ≤ st0.ctr + 1
      simp only [export_one_blob]
      split_ifs
      · exact (h1 f r).trans (Nat.le_succ _)
      · dsimp only
        split_ifs
        · exact Nat.le_refl _
        · exact (h1 f r).trans (Nat.le_succ _)
    · intro f
      show (export_one_blob st0 p).otherMark f ≤ st0.ctr + 1
      simp only [export_one_blob]
      split_ifs
      · dsimp only
        split_ifs
        · exact Nat.le_refl _
        · exact (h2 f).trans (Nat.le_succ _)
      · exact (h2 f).trans (Nat.le_succ _)

/-- C2: in the emitted fast-import stream, every commit `M` line whose
mark `K` was actually assigned (`K ≠ 0`; the counter starts at zero
and pre-increments) is preceded earlier in the stream by the blob
record `mark :<K>`: the driver emits every blob during `export_blobs`
before `export_project_changes` emits any commit. -/
theorem export_blobs_precede_references
    (payloads : List Payload) (commits : List (List Mod)) (i K : Nat)
    (hi : (export_model payloads commits)[i]? = some (Ev.filemod K))
    (hK : K ≠ 0) :
    ∃ j < i, (export_model payloads commits)[j]? = some (Ev.blob K) := by
  have hspec := export_blobs_model_spec payloads
    ⟨0, fun _ _ => 0, fun _ => 0⟩
  have hmarks := export_blobs_model_marks payloads
    ⟨0, fun _ _ => 0, fun _ => 0⟩
    (fun _ _ => Nat.le_refl 0) (fun _ => Nat.le_refl 0)
  have hAlen : (export_blobs_model ⟨0, fun _ _ => 0, fun _ => 0⟩
      payloads).2.length = payloads.length := by
    rw [hspec.1]
    simp
  by_cases hlt : i < payloads.length
  · exfalso
    rw [export_model] at hi
    rw [List.getElem?_append_left (by rw [hAlen]; exact hlt)] at hi
    rw [hspec.1] at hi
    have hblob := List.getElem?_mem hi
    simp only [List.mem_map] at hblob
    obtain ⟨j, _, hj⟩ := hblob
    cases hj
  · push_neg at hlt
    rw [export_model] at hi
    rw [List.getElem?_append_right (by rw [hAlen]; exact hlt)] at hi
    have hmem := List.getElem?_mem hi
    rw [export_commits_model] at hmem
    rw [List.mem_flatten] at hmem
    obtain ⟨evl, hevl, hin⟩ := hmem
    simp only [List.mem_map] at hevl
    obtain ⟨c, _, hc⟩ := hevl
    rw [← hc] at hin
    simp only [List.mem_map] at hin
    obtain ⟨m, _, hm⟩ := hin
    have hKm : K = mod_mark
        (export_blobs_model ⟨0, fun _ _ => 0, fun _ => 0⟩ payloads).1 m := by
      cases hm
      rfl
    have hctr : (export_blobs_model ⟨0, fun _ _ => 0, fun _ => 0⟩
        payloads).1.ctr = payloads.length := by
      have h2 := hspec.2
      simpa using h2
    have hKle : K ≤ payloads.length := by
      rw [hKm, mod_mark]
      split_ifs
      · rw [← hctr]
        exact hmarks.2 m.fileId
      · rw [← hctr]
        exact hmarks.2 m.fileId
      · rw [← hctr]
        exact hmarks.1 m.fileId m.newrev
    refine ⟨K - 1, by omega, ?_⟩
    rw [export_model]
    rw [List.getElem?_append_left (by rw [hAlen]; omega)]
    rw [hspec.1]
    rw [List.getElem?_map]
    rw [List.getElem?_range (by omega)]
    show some (Ev.blob (0 + (K - 1) + 1)) = some (Ev.blob K)
    have hKeq : 0 + (K - 1) + 1 = K := by omega
    rw [hKeq]

/-- Witness for C2: one blob, one commit referencing it. -/
theorem export_blobs_precede_references_witness :
    ∃ j < 1, (export_model [⟨1, [1, 1], false, false⟩]
        [[⟨1, [1, 1], false, false⟩]])[j]? = some (Ev.blob 1) :=
  export_blobs_precede_references [⟨1, [1, 1], false, false⟩]
    [[⟨1, [1, 1], false, false⟩]] 1 1 rfl (by decide)

/-! ## Lemmas and theorems: C5 -/

/-- A revision compares equal to itself. -/
theorem rcs_number_compare_self (a : List Int) :
    rcs_number_compare a a = 0 := by
  induction a with
  | nil => rfl
  | cons x xs ih => simpa [rcs_number_compare, lt_irrefl] using ih

/-- Every member of the commit built by the matching scan is either
already in the accumulator or matches the head's author (case
insensitively) and log and is not a revert. -/
theorem mmu_go_members (env : MergeEnv) (heads : Upd) :
    ∀ (l merged kept : List Upd) (u : Upd),
      u ∈ (mmu_go env heads merged kept l).1 →
      u ∈ merged ∨
        (eq_strcase (env.author u.fileId u.newrev)
            (env.author heads.fileId heads.newrev) = true
          ∧ env.logOf u.fileId u.newrev
            = env.logOf heads.fileId heads.newrev
          ∧ ¬ rcs_number_compare u.newrev u.oldrev < 0) := by
  intro l
  induction l with
  | nil =>
    intro merged kept u hu
    rw [mmu_go] at hu
    left
    simpa using hu
  | cons v rest ih =>
    intro merged kept u hu
    rw [mmu_go] at hu
    split_ifs at hu with h1 h2 h3 h4 h5 h6
    · exact ih _ _ u hu
    · exact ih _ _ u hu
    · exact ih _ _ u hu
    · exact ih _ _ u hu
    · exact ih _ _ u hu
    · rcases ih _ _ u hu with hm | hp
      · rcases List.mem_cons.mp hm with rfl | hm2
        · exact Or.inr ⟨h6.1, h6.2, h4⟩
        · exact Or.inl hm2
      · exact Or.inr hp
    · exact ih _ _ u hu

/-- The matching scan never merges two updates of the same file. -/
theorem mmu_go_pairwise (env : MergeEnv) (heads : Upd) :
    ∀ (l merged kept : List Upd),
      merged.Pairwise (fun a b => a.fileId ≠ b.fileId) →
      (mmu_go env heads merged kept l).1.Pairwise
        (fun a b => a.fileId ≠ b.fileId) := by
  intro l
  induction l with
  | nil =>
    intro merged kept h
    rw [mmu_go]
    rw [List.pairwise_reverse]
    exact h.imp (fun hab => Ne.symm hab)
  | cons v rest ih =>
    intro merged kept h
    rw [mmu_go]
    split_ifs with h1 h2 h3 h4 h5 h6
    · exact ih _ _ h
    · exact ih _ _ h
    · exact ih _ _ h
    · exact ih _ _ h
    · exact ih _ _ h
    · apply ih
      refine List.Pairwise.cons ?_ h
      intro m hm hvm
      exact h2 (List.any_eq_true.mpr ⟨m, hm, by simp [hvm]⟩)
    · exact ih _ _ h

/-- The unmerged remainder of the matching scan is a subsequence of
the already-kept updates followed by the not-yet-visited ones. -/
theorem mmu_go_kept_sublist (env : MergeEnv) (heads : Upd) :
    ∀ (l merged kept : List Upd),
      ((mmu_go env heads merged kept l).2).Sublist (kept.reverse ++ l) := by
  intro l
  induction l with
  | nil =>
    intro merged kept
    rw [mmu_go]
    simp
  | cons v rest ih =>
    intro merged kept
    rw [mmu_go]
    split_ifs
    · simpa [List.reverse_cons, List.append_assoc] using ih merged (v :: kept)
    · simpa [List.reverse_cons, List.append_assoc] using ih merged (v :: kept)
    · simpa [List.reverse_cons, List.append_assoc] using ih merged (v :: kept)
    · simpa [List.reverse_cons, List.append_assoc] using ih merged (v :: kept)
    · simpa [List.reverse_cons, List.append_assoc] using ih merged (v :: kept)
    · exact (ih (v :: merged) kept).trans
        ((List.sublist_cons_self v rest).append_left kept.reverse)
    · simpa [List.reverse_cons, List.append_assoc] using ih merged (v :: kept)

/-- C5 (amended): for every update commit produced by `merge_updates`
— given that the synthetic `$ProjectRevision$` updates of the input
reference pairwise distinct files and carry `oldrev = newrev`, as the
changeset builder constructs them — no two changes of the commit refer
to the same file; in every commit that is not a `$ProjectRevision$`
commit (no member carries the `projrev_update` flag) all merged
updates share a case-insensitively equal author and byte-identical log
text; and any update whose new revision compares below its old
revision is a solitary commit attributed to the unknown author. -/
theorem merge_updates_commit_invariants (env : MergeEnv)
    (updates : List Upd)
    (hrev : ∀ u ∈ updates, u.projrev_update = true → u.oldrev = u.newrev)
    (hfiles : (updates.filter (fun u => u.projrev_update)).Pairwise
        (fun a b => a.fileId ≠ b.fileId)) :
    ∀ c ∈ merge_updates env updates,
      c.updates.Pairwise (fun a b => a.fileId ≠ b.fileId)
      ∧ ((∀ u ∈ c.updates, u.projrev_update = false) →
          c.updates.Pairwise (sameAuthorLog env))
      ∧ ∀ u ∈ c.updates, rcs_number_compare u.newrev u.oldrev < 0 →
          c.updates = [u] ∧ c.committer = Committer.unknown := by
  suffices hgen : ∀ (n : Nat) (l : List Upd), l.length ≤ n →
      (∀ u ∈ l, u.projrev_update = true → u.oldrev = u.newrev) →
      ((l.filter (fun u => u.projrev_update)).Pairwise
          (fun a b => a.fileId ≠ b.fileId)) →
      ∀ c ∈ merge_updates env l,
        c.updates.Pairwise (fun a b => a.fileId ≠ b.fileId)
        ∧ ((∀ u ∈ c.updates, u.projrev_update = false) →
            c.updates.Pairwise (sameAuthorLog env))
        ∧ ∀ u ∈ c.updates, rcs_number_compare u.newrev u.oldrev < 0 →
            c.updates = [u] ∧ c.committer = Committer.unknown by
    exact hgen updates.length updates le_rfl hrev hfiles
  intro n
  induction n with
  | zero =>
    intro l hlen _ _ c hc
    rw [List.length_eq_zero.mp (Nat.le_zero.mp hlen)] at hc
    rw [merge_updates] at hc
    simp at hc
  | succ n ihn =>
    intro l hlen hrev2 hfiles2 c hc
    cases l with
    | nil =>
      rw [merge_updates] at hc
      simp at hc
    | cons update update_list =>
      simp only [List.length_cons, Nat.succ_le_succ_iff] at hlen
      rw [merge_updates] at hc
      by_cases hproj : update.projrev_update = true
      · rw [if_pos hproj] at hc
        rcases List.mem_cons.mp hc with rfl | hc2
        · have hmem : ∀ u ∈ update
              :: (merge_projrev_updates update_list).1,
              u.projrev_update = true := by
            intro u hu
            rcases List.mem_cons.mp hu with rfl | hu2
            · exact hproj
            · exact List.of_mem_filter hu2
          refine ⟨?_, ?_, ?_⟩
          · have heq : update :: (merge_projrev_updates update_list).1
                = (update :: update_list).filter
                    (fun u => u.projrev_update) := by
              simp [merge_projrev_updates, List.filter_cons, hproj]
            rw [heq]
            exact hfiles2
          · intro hall
            have habs := hall update (List.mem_cons_self update _)
            rw [hproj] at habs
            cases habs
          · intro u hu hrevert
            have hmemu : u ∈ update :: update_list := by
              rcases List.mem_cons.mp hu with h | hu2
              · rw [h]
                exact List.mem_cons_self _ _
              · exact List.mem_cons_of_mem _
                  (List.mem_of_mem_filter hu2)
            have heq := hrev2 u hmemu (hmem u hu)
            rw [heq, rcs_number_compare_self] at hrevert
            cases hrevert
        · refine ihn (merge_projrev_updates update_list).2 ?_ ?_ ?_ c hc2
          · have := List.Sublist.length_le
              (List.filter_sublist (l := update_list)
                (p := fun u => !u.projrev_update))
            simp only [merge_projrev_updates]
            omega
          · intro u hu
            exact hrev2 u (List.mem_cons_of_mem update
              ((List.filter_sublist _).subset hu))
          · refine List.Pairwise.sublist ?_ hfiles2
            refine List.Sublist.filter _ ?_
            exact (List.filter_sublist _).trans
              (List.sublist_cons_self update update_list)
      · rw [if_neg hproj] at hc
        by_cases hrevert : rcs_number_compare update.newrev update.oldrev < 0
        · rw [if_pos hrevert] at hc
          rcases List.mem_cons.mp hc with rfl | hc2
          · refine ⟨by simp, fun _ => by simp, ?_⟩
            intro u hu _
            rcases List.mem_singleton.mp hu with rfl
            exact ⟨rfl, rfl⟩
          · refine ihn update_list hlen ?_ ?_ c hc2
            · intro u hu
              exact hrev2 u (List.mem_cons_of_mem update hu)
            · refine List.Pairwise.sublist ?_ hfiles2
              refine List.Sublist.filter _ ?_
              exact List.sublist_cons_self update update_list
        · rw [if_neg hrevert] at hc
          rcases List.mem_cons.mp hc with rfl | hc2
          · by_cases hmiss : env.missing update.fileId update.newrev = true
            · rw [merge_matching_updates, if_pos hmiss]
              refine ⟨by simp, fun _ => by simp, ?_⟩
              intro u hu hurev
              simp only [List.mem_singleton] at hu
              subst hu
              exact absurd hurev hrevert
            · rw [merge_matching_updates, if_neg hmiss]
              have hmember := mmu_go_members env update update_list
                [update] []
              refine ⟨?_, ?_, ?_⟩
              · exact mmu_go_pairwise env update update_list [update] []
                  (by simp)
              · intro _
                apply List.pairwise_of_forall_mem_list
                intro u hu v hv
                have hanchor : ∀ w ∈ (mmu_go env update [update] []
                    update_list).1, sameAuthorLog env w update := by
                  intro w hw
                  rcases hmember w hw with hw1 | hw2
                  · rcases List.mem_singleton.mp hw1 with rfl
                    exact ⟨by simp [eq_strcase], rfl⟩
                  · exact ⟨hw2.1, hw2.2.1⟩
                have hu2 := hanchor u hu
                have hv2 := hanchor v hv
                unfold sameAuthorLog at hu2 hv2 ⊢
                refine ⟨?_, hu2.2.trans hv2.2.symm⟩
                simp only [eq_strcase, decide_eq_true_eq] at hu2 hv2 ⊢
                exact hu2.1.trans hv2.1.symm
              · intro u hu hurev
                rcases hmember u hu with hu1 | hu2
                · rcases List.mem_singleton.mp hu1 with rfl
                  exact absurd hurev hrevert
                · exact absurd hurev hu2.2.2
          · have hsubrem : ((merge_matching_updates env update
                update_list).2).Sublist update_list := by
              rw [merge_matching_updates]
              split_ifs with hmiss
              · exact List.Sublist.refl update_list
              · have := mmu_go_kept_sublist env update update_list
                  [update] []
                simpa using this
            refine ihn (merge_matching_updates env update update_list).2
              ?_ ?_ ?_ c hc2
            · have := hsubrem.length_le
              omega
            · intro u hu
              exact hrev2 u (List.mem_cons_of_mem update
                (hsubrem.subset hu))
            · refine List.Pairwise.sublist ?_ hfiles2
              refine List.Sublist.filter _ ?_
              exact hsubrem.trans
                (List.sublist_cons_self update update_list)

/-- Witness for the amended C5: a single ordinary update forms one
commit holding just that update. -/
theorem merge_updates_commit_invariants_witness :
    (UpdCommit.mk (Committer.mapped [97]) [⟨1, [1, 1], [1, 2], false⟩]
        : UpdCommit).updates.Pairwise (fun a b => a.fileId ≠ b.fileId)
    ∧ ((∀ u ∈ (UpdCommit.mk (Committer.mapped [97])
          [⟨1, [1, 1], [1, 2], false⟩] : UpdCommit).updates,
            u.projrev_update = false) →
        (UpdCommit.mk (Committer.mapped [97])
          [⟨1, [1, 1], [1, 2], false⟩] : UpdCommit).updates.Pairwise
          (sameAuthorLog
            ⟨fun _ _ => [97], fun _ _ => [], fun _ _ => false⟩))
    ∧ ∀ u ∈ (UpdCommit.mk (Committer.mapped [97])
          [⟨1, [1, 1], [1, 2], false⟩] : UpdCommit).updates,
        rcs_number_compare u.newrev u.oldrev < 0 →
        (UpdCommit.mk (Committer.mapped [97])
          [⟨1, [1, 1], [1, 2], false⟩] : UpdCommit).updates = [u]
        ∧ (UpdCommit.mk (Committer.mapped [97])
            [⟨1, [1, 1], [1, 2], false⟩] : UpdCommit).committer
          = Committer.unknown := by
  have h := merge_updates_commit_invariants
    ⟨fun _ _ => [97], fun _ _ => [], fun _ _ => false⟩
    [⟨1, [1, 1], [1, 2], false⟩]
    (by decide) (by decide)
    (UpdCommit.mk (Committer.mapped [97]) [⟨1, [1, 1], [1, 2], false⟩])
    (by rw [merge_updates, if_neg (by decide), if_neg (by decide)]
        exact List.mem_cons_self _ _)
  exact h

/-- C5 counterexample: two `$ProjectRevision$` updates of different
files whose underlying revisions have different authors ([97] = "a"
and [98] = "b") are merged into one commit, so not every update
commit's members share a case-insensitively equal author as the claim
states. -/
theorem merge_updates_projrev_mixed_authors :
    merge_updates
        ⟨fun f _ => if f = 1 then [97] else [98],
         fun _ _ => [], fun _ _ => false⟩
        [⟨1, [1, 2], [1, 2], true⟩, ⟨2, [1, 3], [1, 3], true⟩]
      = [UpdCommit.mk Committer.projrev
          [⟨1, [1, 2], [1, 2], true⟩, ⟨2, [1, 3], [1, 3], true⟩]]
    ∧ MergeEnv.author
        ⟨fun f _ => if f = 1 then [97] else [98],
         fun _ _ => [], fun _ _ => false⟩ 1 [1, 2] = [97]
    ∧ MergeEnv.author
        ⟨fun f _ => if f = 1 then [97] else [98],
         fun _ _ => [], fun _ _ => false⟩ 2 [1, 3] = [98]
    ∧ eq_strcase [97] [98] = false := by
  refine ⟨?_, by decide, by decide, by decide⟩
  rw [merge_updates, if_pos (by decide)]
  rw [show (merge_projrev_updates [⟨2, [1, 3], [1, 3], true⟩]).2 = []
    from rfl]
  rw [merge_updates]
  rfl

/-! ## Lemmas and theorems: C6 -/

/-- Whatever `sanitize_mkssi_branch_char` lets through is graphable
printable ASCII and none of the forbidden characters (nor a space). -/
theorem sanitize_mkssi_branch_char_sound (c0 c : Nat)
    (h : sanitize_mkssi_branch_char c0 = some c) :
    (33 ≤ c ∧ c ≤ 126)
    ∧ c ≠ 92 ∧ c ≠ 42 ∧ c ≠ 63 ∧ c ≠ 44 ∧ c ≠ 58 ∧ c ≠ 91 ∧ c ≠ 32 := by
  rw [sanitize_mkssi_branch_char] at h
  split_ifs at h with h1 h2
  · simp only [Option.some.injEq] at h
    subst h
    omega
  · simp only [Option.some.injEq] at h
    subst h
    push_neg at h2
    obtain ⟨n92, n42, n63, n44, n58, n91, hg⟩ := h2
    rw [Ne, Bool.not_eq_false] at hg
    simp only [isgraph_c, decide_eq_true_eq] at hg
    exact ⟨hg, n92, n42, n63, n44, n58, n91, by omega⟩

/-- The sanitized character produced by `parse_mkssi_branch_char` comes
from `sanitize_mkssi_branch_char`. -/
theorem parse_mkssi_branch_char_snd (s : List Nat) :
    ∃ c0, (parse_mkssi_branch_char s).2 = sanitize_mkssi_branch_char c0 :=
  ⟨_, rfl⟩

/-- Every byte the sanitize loop emits passed the per-character
sanitizer. -/
theorem sanitize_branch_name_go_mem (s : List Nat) :
    ∀ c ∈ sanitize_branch_name_go s,
      ∃ c0, sanitize_mkssi_branch_char c0 = some c := by
  induction s using sanitize_branch_name_go.induct with
  | case1 =>
    rw [sanitize_branch_name_go]
    simp
  | case2 head tail p ih =>
    rw [sanitize_branch_name_go]
    intro c hc
    simp only [List.mem_append] at hc
    rcases hc with hc | hc
    · obtain ⟨c0, hc0⟩ := parse_mkssi_branch_char_snd (head :: tail)
      revert hc
      split
      · rename_i ch hch
        intro hc
        simp only [List.mem_singleton] at hc
        subst hc
        exact ⟨c0, by rw [← hc0, hch]⟩
      · intro hc
        simp at hc
    · exact ih c hc

/-- C6 (amended): every branch name accepted by sanitization is
nonempty and consists only of graphable printable ASCII bytes, none of
which is `\`, `*`, `?`, `,`, `:`, `[` or space.  (The original
claim's "does not end with `.`" clause is dropped: only a `.` that
ends the *input* is rewritten to `_`, so the output can still end with
`.` when the input characters after a `.` are all skipped.) -/
theorem sanitize_branch_name_output_chars (s r : List Nat)
    (h : sanitize_branch_name s = some r) :
    r ≠ []
    ∧ ∀ c ∈ r, (33 ≤ c ∧ c ≤ 126)
        ∧ c ≠ 92 ∧ c ≠ 42 ∧ c ≠ 63 ∧ c ≠ 44 ∧ c ≠ 58 ∧ c ≠ 91 ∧ c ≠ 32 := by
  rw [sanitize_branch_name] at h
  split_ifs at h with he
  simp only [Option.some.injEq] at h
  subst h
  refine ⟨he, fun c hc => ?_⟩
  obtain ⟨c0, hc0⟩ := sanitize_branch_name_go_mem s c hc
  exact sanitize_mkssi_branch_char_sound c0 c hc0

/-- Witness for the amended C6 at the input `"a"`. -/
theorem sanitize_branch_name_output_chars_witness :
    ([97] : List Nat) ≠ []
    ∧ ∀ c ∈ ([97] : List Nat), (33 ≤ c ∧ c ≤ 126)
        ∧ c ≠ 92 ∧ c ≠ 42 ∧ c ≠ 63 ∧ c ≠ 44 ∧ c ≠ 58 ∧ c ≠ 91 ∧ c ≠ 32 :=
  sanitize_branch_name_output_chars [97] [97]
    (by simp [sanitize_branch_name, sanitize_branch_name_go,
      parse_mkssi_branch_char, sanitize_mkssi_branch_char,
      isspace_c, isgraph_c])

/-- C6 counterexample: the MKSSI branch name `"a.,"` is accepted
(nonempty result `"a."`) yet the sanitized name ends with `.`: the
trailing-dot rewrite only fires for a `.` that ends the input, and the
final `,` is dropped after it. -/
theorem sanitize_branch_name_dot_end :
    sanitize_branch_name [97, 46, 44] = some [97, 46]
    ∧ ([97, 46] : List Nat).getLast? = some 46 := by
  constructor
  · simp [sanitize_branch_name, sanitize_branch_name_go,
      parse_mkssi_branch_char, sanitize_mkssi_branch_char,
      isspace_c, isgraph_c, is_hex_digit, hex_val]
  · decide

/-! ## Theorems: C7 -/

/-- C7 counterexample: invoked with no command-line arguments
(`argc == 1`), `main` calls `usage(argv[0], false)`, which prints the
usage text to stdout and exits with status 0 — not 1. -/
theorem main_no_args_exits_zero :
    main_no_args_check 1 = some (OutStream.standard, 0)
    ∧ ((OutStream.standard, 0) : OutStream × Nat).2 ≠ 1 := by
  constructor
  · rfl
  · decide

/-- C7 (amended): with no command-line arguments the program prints
the usage text (to stdout) and exits with status 0. -/
theorem main_no_args_prints_usage :
    main_no_args_check 1 = some (usage false)
    ∧ usage false = (OutStream.standard, 0) :=
  ⟨rfl, rfl⟩

/-! ## Lemmas and theorems: C1 -/

/-- The binary blob callback with `member_type_other=false` leaves
`other_blob_mark` untouched. -/
theorem export_binary_revision_blob_otherMark (f : BinFile) (st : BinSt)
    (rev : List Int) :
    (export_binary_revision_blob f st rev false).otherMark
      = st.otherMark := rfl

/-- For a non-dummy file the binary blob callback with
`member_type_other=false` records the fresh mark on the revision. -/
theorem export_binary_revision_blob_verMark (f : BinFile) (st : BinSt)
    (rev : List Int) (hdummy : f.dummy = false) :
    (export_binary_revision_blob f st rev false).verMark rev
      = st.ctr + 1 := by
  simp [export_binary_revision_blob, hdummy]

/-- The head fix-up never changes a nonzero `other_blob_mark`. -/
theorem other_mark_fixup_ne (f : BinFile) (st : BinSt) (rev : List Int)
    (h : st.otherMark ≠ 0) :
    (other_mark_fixup f st rev).otherMark = st.otherMark := by
  simp only [other_mark_fixup]
  split_ifs with hc
  · exact absurd hc.2.1 h
  · rfl

/-- When the fix-up condition holds, `other_blob_mark` becomes the
revision's own blob mark. -/
theorem other_mark_fixup_set (f : BinFile) (st : BinSt) (rev : List Int)
    (hOther : f.hasOther = true) (hz : st.otherMark = 0)
    (hrev : rev = f.head) :
    (other_mark_fixup f st rev).otherMark = st.verMark rev := by
  simp [other_mark_fixup, hOther, hz, hrev]

/-- Facts about the binary walker and its branch loop, by induction on
the size of the patch forest: every payload the walker emits carries
`member_type_other=false`, and a nonzero `other_blob_mark` is never
changed by the walk. -/
theorem apply_patches_and_emit_facts (n : Nat) :
    (∀ (f : BinFile) (data : Option (List Nat)) (chain : List BinNode)
        (st : BinSt) (res : BinSt × List BinPayload),
      sizeOf chain ≤ n →
      apply_patches_and_emit f data chain st = some res →
      (∀ p ∈ res.2, p.mto = false)
      ∧ (st.otherMark ≠ 0 → res.1.otherMark = st.otherMark))
    ∧ (∀ (f : BinFile) (d : List Nat) (bs : List (List BinNode))
        (st : BinSt) (res : BinSt × List BinPayload),
      sizeOf bs ≤ n →
      walk_branches f d bs st = some res →
      (∀ p ∈ res.2, p.mto = false)
      ∧ (st.otherMark ≠ 0 → res.1.otherMark = st.otherMark)) := by
  induction n with
  | zero =>
    constructor
    · intro f data chain st res hsz hw
      exfalso
      cases chain <;> simp at hsz
    · intro f d bs st res hsz hw
      exfalso
      cases bs <;> simp at hsz
  | succ n ih =>
    obtain ⟨ihW, ihB⟩ := ih
    constructor
    · intro f data chain st res hsz hw
      cases chain with
      | nil =>
        simp only [apply_patches_and_emit] at hw
        injection hw with h
        subst h
        exact ⟨by intro p hp; simp at hp, fun _ => rfl⟩
      | cons node rest =>
        cases node with
        | mk rev cmds text branches =>
          simp only [apply_patches_and_emit] at hw
          have hszb : sizeOf branches ≤ n ∧ sizeOf rest ≤ n := by
            simp at hsz
            omega
          cases hX : next_data cmds text
              (if f.refSubdir ∧ data = none then some [] else data) with
          | none =>
            rw [hX] at hw
            exact absurd hw (by simp)
          | some d =>
            rw [hX] at hw
            dsimp only at hw
            cases hB : walk_branches f d branches
                (other_mark_fixup f
                  (export_binary_revision_blob f st rev false) rev) with
            | none =>
              rw [hB] at hw
              exact absurd hw (by simp)
            | some pr3 =>
              obtain ⟨st3, evb⟩ := pr3
              rw [hB] at hw
              dsimp only at hw
              cases hR : apply_patches_and_emit f (some d) rest st3 with
              | none =>
                rw [hR] at hw
                exact absurd hw (by simp)
              | some pr4 =>
                obtain ⟨st4, evr⟩ := pr4
                rw [hR] at hw
                dsimp only at hw
                injection hw with h
                subst h
                have hfb := ihB f d branches _ _ hszb.1 hB
                have hfr := ihW f (some d) rest _ _ hszb.2 hR
                constructor
                · intro p hp
                  rcases List.mem_cons.mp hp with hphd | hpt
                  · rw [hphd]
                  · rcases List.mem_append.mp hpt with hb | hr
                    · exact hfb.1 p hb
                    · exact hfr.1 p hr
                · intro hne
                  have h1 : (other_mark_fixup f
                      (export_binary_revision_blob f st rev false)
                      rev).otherMark = st.otherMark := by
                    rw [other_mark_fixup_ne]
                    · exact export_binary_revision_blob_otherMark f st rev
                    · rw [export_binary_revision_blob_otherMark]
                      exact hne
                  have hAne : (other_mark_fixup f
                      (export_binary_revision_blob f st rev false)
                      rev).otherMark ≠ 0 := by
                    rw [h1]
                    exact hne
                  have h3 : st3.otherMark = st.otherMark := by
                    rw [hfb.2 hAne, h1]
                  have h3ne : st3.otherMark ≠ 0 := by
                    rw [h3]
                    exact hne
                  show st4.otherMark = st.otherMark
                  rw [hfr.2 h3ne, h3]
    · intro f d bs st res hsz hw
      cases bs with
      | nil =>
        simp only [walk_branches] at hw
        injection hw with h
        subst h
        exact ⟨by intro p hp; simp at hp, fun _ => rfl⟩
      | cons b rest =>
        simp only [walk_branches] at hw
        have hszb : sizeOf b ≤ n ∧ sizeOf rest ≤ n := by
          simp at hsz
          omega
        cases h1 : apply_patches_and_emit f (some d) b st with
        | none =>
          rw [h1] at hw
          exact absurd hw (by simp)
        | some pr1 =>
          obtain ⟨st1, ev1⟩ := pr1
          rw [h1] at hw
          dsimp only at hw
          cases h2 : walk_branches f d rest st1 with
          | none =>
            rw [h2] at hw
            exact absurd hw (by simp)
          | some pr2 =>
            obtain ⟨st2, ev2⟩ := pr2
            rw [h2] at hw
            dsimp only at hw
            injection hw with h
            subst h
            have hf1 := ihW f (some d) b _ _ hszb.1 h1
            have hf2 := ihB f d rest _ _ hszb.2 h2
            constructor
            · intro p hp
              rcases List.mem_append.mp hp with ha | hb
              · exact hf1.1 p ha
              · exact hf2.1 p hb
            · intro hne
              have h1ne : st1.otherMark ≠ 0 := by
                rw [hf1.2 hne]
                exact hne
              show st2.otherMark = st.otherMark
              rw [hf2.2 h1ne, hf1.2 hne]

/-- C1 counterexample: a binary file with `has_member_type_other` set
and no project-directory copy available, with a single head revision.
The full export emits exactly one payload; no payload carries
`member_type_other=true` (so no extra payload is emitted), and
`other_blob_mark` ends equal to the head revision's own blob mark
rather than a distinct mark. -/
theorem binary_other_mark_reuse :
    (rcs_binary_file_read_all_revisions ⟨[1, 1], true, false, false⟩
        none [BinNode.mk [1, 1] [] [7] []]
        ⟨0, fun _ => 0, 0⟩).map
        (fun r => (r.2.map (fun p => (p.mark, p.mto)),
          r.1.otherMark, r.1.verMark [1, 1]))
      = some ([(1, false)], 1, 1) := by
  simp [rcs_binary_file_read_all_revisions, export_projdir_revision,
    apply_patches_and_emit, walk_branches, next_data, apply_patch,
    apply_patch_go, export_binary_revision_blob, other_mark_fixup]

/-- C1 (amended): a walk of a binary file whose first (head) node is
reached with `has_member_type_other` set, the file not dummy or stored
by reference, and `other_blob_mark` still zero (no project-directory
copy was available) emits no payload with `member_type_other=true`;
the head bytes are emitted once, with `member_type_other=false`, and
`other_blob_mark` ends up equal to that head payload's own mark — the
mark is re-used, not distinct.  For text files the member-type-other
step (modelled from the spec, the current text walker being absent
from the tree) re-emits revision 1.1 once with `member_type_other=true`
and records its fresh mark in `other_blob_mark`. -/
theorem member_type_other_payloads (f : BinFile) (cmds : List BinCmd)
    (text tdata : List Nat) (branches : List (List BinNode))
    (rest : List BinNode) (st : BinSt)
    (res : BinSt × List BinPayload)
    (hOther : f.hasOther = true) (hdummy : f.dummy = false)
    (href : f.refSubdir = false) (hzero : st.otherMark = 0)
    (hw : apply_patches_and_emit f none
        (BinNode.mk f.head cmds text branches :: rest) st = some res) :
    (∀ p ∈ res.2, p.mto = false)
    ∧ res.1.otherMark = st.ctr + 1
    ∧ res.2.head? = some (BinPayload.mk f.head text (st.ctr + 1) false)
    ∧ (text_reemit_other f tdata st).2
        = [BinPayload.mk [1, 1] tdata (st.ctr + 1) true]
    ∧ (text_reemit_other f tdata st).1.otherMark = st.ctr + 1 := by
  simp only [apply_patches_and_emit] at hw
  rw [if_neg (by simp [href])] at hw
  have hX : next_data cmds text none = some text := rfl
  rw [hX] at hw
  dsimp only at hw
  cases hB : walk_branches f text branches
      (other_mark_fixup f
        (export_binary_revision_blob f st f.head false) f.head) with
  | none =>
    rw [hB] at hw
    exact absurd hw (by simp)
  | some pr3 =>
    obtain ⟨st3, evb⟩ := pr3
    rw [hB] at hw
    dsimp only at hw
    cases hR : apply_patches_and_emit f (some text) rest st3 with
    | none =>
      rw [hR] at hw
      exact absurd hw (by simp)
    | some pr4 =>
      obtain ⟨st4, evr⟩ := pr4
      rw [hR] at hw
      dsimp only at hw
      injection hw with h
      subst h
      have hfb := (apply_patches_and_emit_facts (sizeOf branches)).2
        f text branches _ _ (Nat.le_refl _) hB
      have hfr := (apply_patches_and_emit_facts (sizeOf rest)).1
        f (some text) rest _ _ (Nat.le_refl _) hR
      have hst2 : (other_mark_fixup f
          (export_binary_revision_blob f st f.head false)
          f.head).otherMark = st.ctr + 1 := by
        rw [other_mark_fixup_set f _ f.head hOther
          (by rw [export_binary_revision_blob_otherMark]; exact hzero)
          rfl]
        exact export_binary_revision_blob_verMark f st f.head hdummy
      have hAne : (other_mark_fixup f
          (export_binary_revision_blob f st f.head false)
          f.head).otherMark ≠ 0 := by
        rw [hst2]
        exact Nat.succ_ne_zero _
      have h3 : st3.otherMark = st.ctr + 1 := by
        rw [hfb.2 hAne, hst2]
      have h3ne : st3.otherMark ≠ 0 := by
        rw [h3]
        exact Nat.succ_ne_zero _
      refine ⟨?_, ?_, rfl, ?_, ?_⟩
      · intro p hp
        rcases List.mem_cons.mp hp with hphd | hpt
        · rw [hphd]
        · rcases List.mem_append.mp hpt with hb | hr
          · exact hfb.1 p hb
          · exact hfr.1 p hr
      · show st4.otherMark = st.ctr + 1
        rw [hfr.2 h3ne, h3]
      · simp [text_reemit_other, hOther]
      · simp [text_reemit_other, hOther, export_revision_blob]

/-- Witness for C1 (amended): the single-head-node walk at a concrete
file, state and data. -/
theorem member_type_other_payloads_witness :
    (∀ p ∈ [BinPayload.mk [1, 1] [7] 1 false], p.mto = false)
    ∧ (1 : Nat) = 1
    ∧ ([BinPayload.mk [1, 1] [7] 1 false].head?
        = some (BinPayload.mk [1, 1] [7] 1 false))
    ∧ (text_reemit_other ⟨[1, 1], true, false, false⟩ [9]
        ⟨0, fun _ => 0, 0⟩).2 = [BinPayload.mk [1, 1] [9] 1 true]
    ∧ (text_reemit_other ⟨[1, 1], true, false, false⟩ [9]
        ⟨0, fun _ => 0, 0⟩).1.otherMark = 1 :=
  member_type_other_payloads ⟨[1, 1], true, false, false⟩ [] [7] [9]
    [] [] ⟨0, fun _ => 0, 0⟩
    (⟨1, fun r => if r = [1, 1] then 1 else 0, 1⟩,
      [BinPayload.mk [1, 1] [7] 1 false])
    rfl rfl rfl rfl
    (by simp [apply_patches_and_emit, walk_branches, next_data,
      apply_patch, apply_patch_go, export_binary_revision_blob,
      other_mark_fixup])

end MkssiFastExport
